import Mathlib

/-!
Verification of the sense-disambiguation core of the `word-radar-data`
serverless function (`netlify/functions/word-radar-data.js`).

Strings are modelled as `List Char` (one entry per code point), JavaScript
`Set`s of strings as duplicate-free lists keeping first occurrences, and the
Jaccard similarity value as a rational number.  Each definition below mirrors
one JavaScript function or statement of the source file; the section comments
cite the corresponding source lines.
-/

namespace WordRadar

/-! ### Character classes

`isJsWs` is the character set matched by JavaScript's `\s` regex class
(ECMA-262 WhiteSpace ∪ LineTerminator); `isLineTerm` is the LineTerminator
subset, which `.` in a regex without the `s` flag refuses to match. -/

def lbrace : Char := Char.ofNat 123

def rbrace : Char := Char.ofNat 125

def isJsWs (c : Char) : Bool :=
  c.toNat = 32 || c.toNat = 9 || c.toNat = 10 || c.toNat = 11 || c.toNat = 12 ||
  c.toNat = 13 || c.toNat = 160 || c.toNat = 5760 ||
  (8192 ≤ c.toNat && c.toNat ≤ 8202) ||
  c.toNat = 8232 || c.toNat = 8233 || c.toNat = 8239 || c.toNat = 8287 ||
  c.toNat = 12288 || c.toNat = 65279

def isLineTerm (c : Char) : Bool :=
  c.toNat = 10 || c.toNat = 13 || c.toNat = 8232 || c.toNat = 8233

lemma isJsWs_of_isLineTerm {c : Char} (h : isLineTerm c = true) : isJsWs c = true := by
  simp only [isLineTerm, Bool.or_eq_true, decide_eq_true_eq] at h
  simp only [isJsWs, Bool.or_eq_true, Bool.and_eq_true, decide_eq_true_eq]
  omega

/-! ### Lower-casing

`jsToLower` models `String.prototype.toLowerCase` on the ASCII range (the
only range exercised by this repository's definitions); all other characters
are left unchanged. -/

def upperChars : List Char :=
  ['A', 'B', 'C', 'D', 'E', 'F', 'G', 'H', 'I', 'J', 'K', 'L', 'M',
   'N', 'O', 'P', 'Q', 'R', 'S', 'T', 'U', 'V', 'W', 'X', 'Y', 'Z']

def lowerChars : List Char :=
  ['a', 'b', 'c', 'd', 'e', 'f', 'g', 'h', 'i', 'j', 'k', 'l', 'm',
   'n', 'o', 'p', 'q', 'r', 's', 't', 'u', 'v', 'w', 'x', 'y', 'z']

def jsToLower (c : Char) : Char :=
  match (upperChars.zip lowerChars).find? (fun p => p.1 == c) with
  | some p => p.2
  | none => c

lemma jsToLower_cases (c : Char) :
    jsToLower c = c ∨ (jsToLower c ∈ lowerChars ∧ c ∈ upperChars) := by
  unfold jsToLower
  cases hf : (upperChars.zip lowerChars).find? (fun p => p.1 == c) with
  | none => exact Or.inl rfl
  | some p =>
    obtain ⟨a, b⟩ := p
    have hmem := List.mem_of_find?_eq_some hf
    have hpred : a = c := by simpa using List.find?_some hf
    have h1 : a ∈ upperChars := (List.of_mem_zip hmem).1
    have h2 : b ∈ lowerChars := (List.of_mem_zip hmem).2
    exact Or.inr ⟨h2, hpred ▸ h1⟩

lemma jsToLower_of_mem_lower {x : Char} (hx : x ∈ lowerChars) : jsToLower x = x := by
  fin_cases hx <;> decide

lemma isJsWs_of_mem_lower {x : Char} (hx : x ∈ lowerChars) : isJsWs x = false := by
  fin_cases hx <;> decide

lemma isJsWs_of_mem_upper {x : Char} (hx : x ∈ upperChars) : isJsWs x = false := by
  fin_cases hx <;> decide

lemma jsToLower_idem (c : Char) : jsToLower (jsToLower c) = jsToLower c := by
  rcases jsToLower_cases c with h | ⟨hl, _⟩
  · rw [h]
    exact h
  · exact jsToLower_of_mem_lower hl

lemma isJsWs_jsToLower (c : Char) : isJsWs (jsToLower c) = isJsWs c := by
  rcases jsToLower_cases c with h | ⟨hl, hu⟩
  · rw [h]
  · rw [isJsWs_of_mem_lower hl, isJsWs_of_mem_upper hu]

lemma jsToLower_eq_iff {c d : Char} (h1 : d ∉ lowerChars) (h2 : d ∉ upperChars) :
    jsToLower c = d ↔ c = d := by
  constructor
  · intro h
    rcases jsToLower_cases c with hc | ⟨hl, _⟩
    · rw [← hc, h]
    · exact absurd (h ▸ hl) h1
  · intro h
    subst h
    rcases jsToLower_cases c with hc | ⟨_, hu⟩
    · exact hc
    · exact absurd hu h2

/-! ### The definition normalizer `cleanDefinition` (source lines 211–219)

```js
function cleanDefinition(definition) {
    return definition
        .replace(/{.*?}/g, '')      // Remove markup like {it}
        .replace(/\s+/g, ' ')       // Normalize whitespace
        .replace(/^:\s*/, '')       // Remove leading colons
        .replace(/[;,].*$/, '')     // Keep only the first clause before a semicolon or comma
        .trim()
        .toLowerCase();
}
```

Each regex is embedded by its ECMA-262 semantics: `.` never matches a
LineTerminator, `$` (without the `m` flag) matches only at the end of the
input, and matches of a global replace are leftmost and non-overlapping. -/

/-- `replace(/{.*?}/g, '')` as a left-to-right automaton.  In state
`some acc`, `acc` holds (reversed) a pending candidate match: an unclosed
`{` and the non-`}` characters scanned since.  The candidate closes at the
first `}` (the non-greedy `.*?` stops there) and the whole match is dropped;
it aborts at a LineTerminator or at the end of input (`.` matches neither),
in which case the pending characters are emitted verbatim — every `{` among
them would abort at that same position, because `acc` contains no `}`, so no
start position inside the buffer can produce a match. -/
def removeBracesAux : Option (List Char) → List Char → List Char
  | none, [] => []
  | some acc, [] => acc.reverse
  | none, c :: cs =>
    if c = lbrace then removeBracesAux (some [c]) cs
    else c :: removeBracesAux none cs
  | some acc, c :: cs =>
    if c = rbrace then removeBracesAux none cs
    else if isLineTerm c then acc.reverse ++ c :: removeBracesAux none cs
    else removeBracesAux (some (c :: acc)) cs

def removeBraces (l : List Char) : List Char := removeBracesAux none l

/-- `replace(/\s+/g, ' ')`: each maximal run of `\s` characters becomes a
single space.  The flag records whether the previous character was part of a
run that has already emitted its space. -/
def collapseWsAux : Bool → List Char → List Char
  | _, [] => []
  | inRun, c :: cs =>
    if isJsWs c then
      if inRun then collapseWsAux true cs else ' ' :: collapseWsAux true cs
    else c :: collapseWsAux false cs

def collapseWs (l : List Char) : List Char := collapseWsAux false l

/-- `replace(/^:\s*/, '')`. -/
def stripLeadingColon (l : List Char) : List Char :=
  match l with
  | [] => []
  | c :: cs => if c = ':' then cs.dropWhile isJsWs else c :: cs

/-- `replace(/[;,].*$/, '')`: truncate at the first `;` or `,` after which no
LineTerminator occurs (without the `m` flag, `$` only matches at the very end
of the input, and `.*` cannot cross a LineTerminator). -/
def truncateClause : List Char → List Char
  | [] => []
  | c :: cs =>
    if (c = ';' || c = ',') && !cs.any isLineTerm then []
    else c :: truncateClause cs

/-- `String.prototype.trim` removes `\s` characters from both ends. -/
def trimWs (l : List Char) : List Char :=
  ((l.dropWhile isJsWs).reverse.dropWhile isJsWs).reverse

def cleanDefinition (definition : List Char) : List Char :=
  (trimWs (truncateClause (stripLeadingColon (collapseWs (removeBraces definition))))).map
    jsToLower

example : cleanDefinition "  The Act of {it}Walking{/it} slowly; or ambling  ".data =
    "the act of walking slowly".data := by decide

example : cleanDefinition ": To Move Fast, or quickly".data = "to move fast".data := by decide

/-! ### JavaScript `Set` semantics

`new Set(list)` keeps the first occurrence of each element, in insertion
order.  `jsSet` reproduces that; only membership and size are observed by the
source, but the order is kept faithful anyway. -/

def jsSetAux {α : Type} [DecidableEq α] (seen : List α) : List α → List α
  | [] => []
  | a :: l => if a ∈ seen then jsSetAux seen l else a :: jsSetAux (a :: seen) l

def jsSet {α : Type} [DecidableEq α] (l : List α) : List α := jsSetAux [] l

lemma mem_jsSetAux {α : Type} [DecidableEq α] {x : α} :
    ∀ {seen l : List α}, x ∈ jsSetAux seen l ↔ x ∈ l ∧ x ∉ seen := by
  intro seen l
  induction l generalizing seen with
  | nil => simp [jsSetAux]
  | cons a l ih =>
    by_cases h : a ∈ seen
    · simp only [jsSetAux, if_pos h, ih, List.mem_cons]
      constructor
      · rintro ⟨hx, hs⟩
        exact ⟨Or.inr hx, hs⟩
      · rintro ⟨hx | hx, hs⟩
        · exact absurd (hx ▸ h) hs
        · exact ⟨hx, hs⟩
    · simp only [jsSetAux, if_neg h, List.mem_cons, ih]
      by_cases hxa : x = a
      · subst hxa
        simp [h]
      · simp [hxa]

lemma mem_jsSet {α : Type} [DecidableEq α] {x : α} {l : List α} :
    x ∈ jsSet l ↔ x ∈ l := by
  simp [jsSet, mem_jsSetAux]

lemma nodup_jsSetAux {α : Type} [DecidableEq α] :
    ∀ {seen l : List α}, (jsSetAux seen l).Nodup := by
  intro seen l
  induction l generalizing seen with
  | nil => simp [jsSetAux]
  | cons a l ih =>
    by_cases h : a ∈ seen
    · simpa [jsSetAux, if_pos h] using ih
    · rw [jsSetAux, if_neg h]
      refine List.nodup_cons.mpr ⟨?_, ih⟩
      intro hc
      exact absurd (mem_jsSetAux.mp hc).2 (by simp)

lemma nodup_jsSet {α : Type} [DecidableEq α] {l : List α} : (jsSet l).Nodup :=
  nodup_jsSetAux

lemma length_jsSetAux_le {α : Type} [DecidableEq α] :
    ∀ {seen l : List α}, (jsSetAux seen l).length ≤ l.length := by
  intro seen l
  induction l generalizing seen with
  | nil => simp [jsSetAux]
  | cons a l ih =>
    by_cases h : a ∈ seen
    · simpa [jsSetAux, if_pos h] using Nat.le_succ_of_le ih
    · simpa [jsSetAux, if_neg h] using Nat.succ_le_succ ih

lemma jsSetAux_eq_self {α : Type} [DecidableEq α] :
    ∀ {seen l : List α}, l.Nodup → (∀ x ∈ l, x ∉ seen) → jsSetAux seen l = l := by
  intro seen l
  induction l generalizing seen with
  | nil => simp [jsSetAux]
  | cons a l ih =>
    intro hnd hdisj
    have ha : a ∉ seen := hdisj a (List.mem_cons_self _ _)
    rw [jsSetAux, if_neg ha, ih (List.Nodup.of_cons hnd)]
    intro x hx
    simp only [List.mem_cons, not_or]
    exact ⟨fun hc => (List.nodup_cons.mp hnd).1 (hc ▸ hx), hdisj x (List.mem_cons_of_mem _ hx)⟩

lemma jsSetAux_nil_of_subset {α : Type} [DecidableEq α] :
    ∀ {seen l : List α}, (∀ x ∈ l, x ∈ seen) → jsSetAux seen l = [] := by
  intro seen l
  induction l generalizing seen with
  | nil => simp [jsSetAux]
  | cons a l ih =>
    intro hsub
    rw [jsSetAux, if_pos (hsub a (List.mem_cons_self _ _))]
    exact ih fun x hx => hsub x (List.mem_cons_of_mem _ hx)

lemma jsSetAux_append {α : Type} [DecidableEq α] :
    ∀ {seen l1 l2 : List α}, (∀ x ∈ l2, x ∈ l1 ∨ x ∈ seen) →
      jsSetAux seen (l1 ++ l2) = jsSetAux seen l1 := by
  intro seen l1
  induction l1 generalizing seen with
  | nil =>
    intro l2 h
    simp only [List.nil_append, jsSetAux]
    exact jsSetAux_nil_of_subset fun x hx => (h x hx).resolve_left (by simp)
  | cons a l1 ih =>
    intro l2 h
    by_cases ha : a ∈ seen
    · rw [List.cons_append, jsSetAux, if_pos ha, jsSetAux, if_pos ha]
      refine ih fun x hx => ?_
      rcases h x hx with hx1 | hx2
      · rcases List.mem_cons.mp hx1 with rfl | hx1
        · exact Or.inr ha
        · exact Or.inl hx1
      · exact Or.inr hx2
    · rw [List.cons_append, jsSetAux, if_neg ha, jsSetAux, if_neg ha]
      congr 1
      refine ih fun x hx => ?_
      rcases h x hx with hx1 | hx2
      · rcases List.mem_cons.mp hx1 with rfl | hx1
        · exact Or.inr (List.mem_cons_self _ _)
        · exact Or.inl hx1
      · exact Or.inr (List.mem_cons_of_mem _ hx2)

lemma jsSet_ne_nil {α : Type} [DecidableEq α] {l : List α} (h : l ≠ []) : jsSet l ≠ [] := by
  cases l with
  | nil => exact absurd rfl h
  | cons a l => simp [jsSet, jsSetAux]

/-! ### The similarity scorer `calculateSimilarity` (source lines 221–228)

```js
function calculateSimilarity(str1, str2) {
    // Jaccard similarity based on word tokens
    const words1 = new Set(str1.split(/\s+/));
    const words2 = new Set(str2.split(/\s+/));
    const intersection = new Set([...words1].filter(x => words2.has(x)));
    const union = new Set([...words1, ...words2]);
    return union.size === 0 ? 0 : intersection.size / union.size;
}
```

`String.prototype.split(/\s+/)` splits at each (maximal, since `\s+` is
greedy) run of whitespace and keeps empty fragments at the ends; in
particular `"".split(/\s+/)` is `[""]`, never `[]`. -/

def splitWsAux : Bool → List Char → List Char → List (List Char)
  | _, cur, [] => [cur.reverse]
  | inRun, cur, c :: cs =>
    if isJsWs c then
      if inRun then splitWsAux true cur cs
      else cur.reverse :: splitWsAux true [] cs
    else splitWsAux false (c :: cur) cs

def jsSplitWs (l : List Char) : List (List Char) := splitWsAux false [] l

lemma splitWsAux_ne_nil : ∀ (inRun : Bool) (cur l : List Char), splitWsAux inRun cur l ≠ [] := by
  intro inRun cur l
  induction l generalizing inRun cur with
  | nil => simp [splitWsAux]
  | cons c cs ih =>
    by_cases h : isJsWs c
    · cases inRun with
      | true => simpa [splitWsAux, h] using ih true cur
      | false => simp [splitWsAux, h]
    · simpa [splitWsAux, h] using ih false (c :: cur)

lemma jsSplitWs_ne_nil (l : List Char) : jsSplitWs l ≠ [] := splitWsAux_ne_nil false [] l

example : jsSplitWs "".data = [[]] := by decide

example : jsSplitWs " a  bb ".data = [[], ['a'], ['b', 'b'], []] := by decide

def calculateSimilarity (str1 str2 : List Char) : ℚ :=
  let words1 := jsSet (jsSplitWs str1)
  let words2 := jsSet (jsSplitWs str2)
  let intersection := words1.filter (fun x => decide (x ∈ words2))
  let union := jsSet (words1 ++ words2)
  if union.length = 0 then 0 else (intersection.length : ℚ) / (union.length : ℚ)

lemma calculateSimilarity_self (s : List Char) : calculateSimilarity s s = 1 := by
  have hne : jsSet (jsSplitWs s) ≠ [] := jsSet_ne_nil (jsSplitWs_ne_nil s)
  have hfilter : (jsSet (jsSplitWs s)).filter (fun x => decide (x ∈ jsSet (jsSplitWs s))) =
      jsSet (jsSplitWs s) :=
    List.filter_eq_self.mpr fun a ha => by simpa using ha
  have hunion : jsSet (jsSet (jsSplitWs s) ++ jsSet (jsSplitWs s)) = jsSet (jsSplitWs s) := by
    rw [jsSet, jsSetAux_append fun x hx => Or.inl hx]
    exact jsSetAux_eq_self nodup_jsSet fun x _ => by simp
  have hlen : (jsSet (jsSplitWs s)).length ≠ 0 := by
    simpa [List.length_eq_zero] using hne
  unfold calculateSimilarity
  simp only [hfilter, hunion, if_neg hlen]
  exact div_self (by exact_mod_cast hlen)

lemma calculateSimilarity_le_one (a b : List Char) : calculateSimilarity a b ≤ 1 := by
  unfold calculateSimilarity
  set w1 := jsSet (jsSplitWs a) with hw1
  set w2 := jsSet (jsSplitWs b) with hw2
  by_cases h : (jsSet (w1 ++ w2)).length = 0
  · simp [h]
  · rw [if_neg h]
    have hsub : (w1.filter (fun x => decide (x ∈ w2))) ⊆ jsSet (w1 ++ w2) := by
      intro x hx
      exact mem_jsSet.mpr (List.mem_append_left _ (List.mem_of_mem_filter hx))
    have hnd : (w1.filter (fun x => decide (x ∈ w2))).Nodup :=
      List.Nodup.filter _ nodup_jsSet
    have hle : (w1.filter (fun x => decide (x ∈ w2))).length ≤ (jsSet (w1 ++ w2)).length :=
      (List.subperm_of_subset hnd hsub).length_le
    rw [div_le_one (by positivity)]
    exact_mod_cast hle

/-! ### The sense clustering engine `processSensesWithClustering`
(source lines 230–289)

A raw sense is `{ definition, synonyms }`; pre-processing attaches
`cleanDef` and `synonymCount`.  Clusters have the same shape as processed
senses (`clusters.push({ ...sense })` copies a sense verbatim). -/

structure RawSense where
  definition : List Char
  synonyms : List String
deriving DecidableEq

structure Sense where
  definition : List Char
  synonyms : List String
  cleanDef : List Char
  synonymCount : Nat
deriving DecidableEq

def toSense (sense : RawSense) : Sense :=
  { definition := sense.definition
    synonyms := sense.synonyms
    cleanDef := cleanDefinition sense.definition
    synonymCount := sense.synonyms.length }

/-- `Array.prototype.sort` with comparator `(a, b) => b.synonymCount -
a.synonymCount`: a stable sort, descending by `synonymCount`, modelled as a
stable insertion sort (an earlier element stays in front of a later element
with the same count). -/
def insertDesc (x : Sense) : List Sense → List Sense
  | [] => [x]
  | y :: ys => if y.synonymCount ≤ x.synonymCount then x :: y :: ys else y :: insertDesc x ys

def sortDesc (l : List Sense) : List Sense := l.foldr insertDesc []

lemma insertDesc_perm (x : Sense) (l : List Sense) : List.Perm (insertDesc x l) (x :: l) := by
  induction l with
  | nil => rfl
  | cons y ys ih =>
    by_cases h : y.synonymCount ≤ x.synonymCount
    · rw [insertDesc, if_pos h]
    · rw [insertDesc, if_neg h]
      exact (ih.cons y).trans (List.Perm.swap x y ys)

lemma sortDesc_perm (l : List Sense) : List.Perm (sortDesc l) l := by
  induction l with
  | nil => rfl
  | cons x xs ih => exact (insertDesc_perm x (sortDesc xs)).trans (ih.cons x)

/-- Descending order by `synonymCount`. -/
def descBy (a b : Sense) : Prop := b.synonymCount ≤ a.synonymCount

lemma pairwise_insertDesc {x : Sense} {l : List Sense} (h : l.Pairwise descBy) :
    (insertDesc x l).Pairwise descBy := by
  induction l with
  | nil => simp [insertDesc, descBy]
  | cons y ys ih =>
    rcases List.pairwise_cons.mp h with ⟨hy, hys⟩
    by_cases hc : y.synonymCount ≤ x.synonymCount
    · rw [insertDesc, if_pos hc]
      refine List.pairwise_cons.mpr ⟨?_, h⟩
      intro z hz
      rcases List.mem_cons.mp hz with rfl | hz
      · exact hc
      · exact le_trans (hy z hz) hc
    · rw [insertDesc, if_neg hc]
      refine List.pairwise_cons.mpr ⟨?_, ih hys⟩
      intro z hz
      rcases List.mem_cons.mp ((insertDesc_perm x ys).mem_iff.mp hz) with rfl | hz
      · exact le_of_lt (lt_of_not_le hc)
      · exact hy z hz

lemma pairwise_sortDesc (l : List Sense) : (sortDesc l).Pairwise descBy := by
  induction l with
  | nil => simp [sortDesc]
  | cons x xs ih => exact pairwise_insertDesc ih

/-- Merging a sense into an existing cluster (source lines 253–262): union
the synonym sets, recompute the count, and keep the longer original
definition (strictly longer replaces; ties keep the cluster's). -/
def mergeCluster (cluster sense : Sense) : Sense :=
  let combinedSynonyms := jsSet (cluster.synonyms ++ sense.synonyms)
  { definition :=
      if cluster.definition.length < sense.definition.length then sense.definition
      else cluster.definition
    synonyms := combinedSynonyms
    cleanDef :=
      if cluster.definition.length < sense.definition.length then sense.cleanDef
      else cluster.cleanDef
    synonymCount := combinedSynonyms.length }

/-- The inner `for (const cluster of clusters)` loop: find the first cluster
with `calculateSimilarity(sense.cleanDef, cluster.cleanDef) >
similarityThreshold`, merge into it and stop; `none` when no cluster
matches. -/
def mergeInto (similarityThreshold : ℚ) (sense : Sense) : List Sense → Option (List Sense)
  | [] => none
  | cluster :: rest =>
    if similarityThreshold < calculateSimilarity sense.cleanDef cluster.cleanDef then
      some (mergeCluster cluster sense :: rest)
    else
      (mergeInto similarityThreshold sense rest).map (cluster :: ·)

/-- One iteration of the outer loop (source lines 247–272): senses with
`synonymCount === 0` are skipped; otherwise merge into the first similar
cluster or append a fresh cluster copying the sense. -/
def clusterStep (similarityThreshold : ℚ) (clusters : List Sense) (sense : Sense) :
    List Sense :=
  if sense.synonymCount = 0 then clusters
  else
    match mergeInto similarityThreshold sense clusters with
    | some merged => merged
    | none => clusters ++ [sense]

def processedSensesOf (allRawSenses : List RawSense) : List Sense :=
  sortDesc (allRawSenses.map toSense)

def clustersOf (allRawSenses : List RawSense) (similarityThreshold : ℚ) : List Sense :=
  (processedSensesOf allRawSenses).foldl (clusterStep similarityThreshold) []

def finalClusters (allRawSenses : List RawSense) (similarityThreshold : ℚ) : List Sense :=
  sortDesc (clustersOf allRawSenses similarityThreshold)

/-- The result object: `additionalSenses` is `none` both when the field is
absent (first two return statements) and when it is `null` (third return
with an empty slice); the claims treat those two states identically. -/
structure ClusteringResult where
  senses : List Sense
  additionalSenses : Option (List Sense)
  hasMore : Bool
deriving DecidableEq

/-- Source lines 230–289; the JavaScript default parameters are
`primarySenseCount = 3`, `maxTotalSenses = 8`, `similarityThreshold = 0.5`
(callers of this model pass them explicitly).  `slice(a, b)` is
`(drop a).take (b - a)`. -/
def processSensesWithClustering (allRawSenses : List RawSense) (primarySenseCount : Nat)
    (maxTotalSenses : Nat) (similarityThreshold : ℚ) : ClusteringResult :=
  let finalSenses := finalClusters allRawSenses similarityThreshold
  if finalSenses.length = 0 then ⟨[], none, false⟩
  else if finalSenses.length ≤ primarySenseCount then ⟨finalSenses, none, false⟩
  else
    let primarySenses := finalSenses.take primarySenseCount
    let additionalSenses :=
      (finalSenses.drop primarySenseCount).take (maxTotalSenses - primarySenseCount)
    ⟨primarySenses,
      if 0 < additionalSenses.length then some additionalSenses else none,
      decide (0 < additionalSenses.length)⟩

/-- All clusters the caller receives: the primary list followed by the
additional list (empty when absent). -/
def outputClusters (r : ClusteringResult) : List Sense :=
  r.senses ++ r.additionalSenses.getD []

example :
    processSensesWithClustering [⟨"x".data, []⟩] 3 8 (1/2) = ⟨[], none, false⟩ := by
  decide

example :
    processSensesWithClustering [⟨"d".data, ["a", "b"]⟩] 3 8 (1/2) =
      ⟨[⟨"d".data, ["a", "b"], "d".data, 2⟩], none, false⟩ := by
  decide

/-- If some cluster in the list is similar enough to the sense, the inner
loop merges (it may stop at an even earlier similar cluster). -/
lemma mergeInto_ne_none_of_mem {similarityThreshold : ℚ} {sense : Sense}
    {clusters : List Sense} {cluster : Sense} (hmem : cluster ∈ clusters)
    (hsim : similarityThreshold < calculateSimilarity sense.cleanDef cluster.cleanDef) :
    mergeInto similarityThreshold sense clusters ≠ none := by
  induction clusters with
  | nil => simp at hmem
  | cons c rest ih =>
    rw [mergeInto]
    by_cases h : similarityThreshold < calculateSimilarity sense.cleanDef c.cleanDef
    · simp [h]
    · rw [if_neg h]
      rcases List.mem_cons.mp hmem with rfl | hm
      · exact absurd hsim h
      · simpa using ih hm

/-- **C1** (status: code bug).  The spec demands
`calculateSimilarity("", "") == 0`, and the dead `union.size === 0` guard in
the source shows the same intent, but `"".split(/\s+/)` is `[""]`, so both
token sets are `{""}` and the function returns `1`. -/
theorem similarity_empty_empty_eq_one : calculateSimilarity [] [] = 1 :=
  calculateSimilarity_self []

/-- **C10**.  The similarity scorer is reflexive with value 1 on every
string (splitting always yields at least one token, so the guard never
fires), and consequently a sense whose `cleanDef` coincides with some
existing cluster's always merges when the threshold is below 1. -/
theorem similarity_reflexive_one (s : List Char) (similarityThreshold : ℚ)
    (hthr : similarityThreshold < 1) (sense : Sense) (clusters : List Sense)
    (hc : ∃ cluster ∈ clusters, cluster.cleanDef = sense.cleanDef) :
    calculateSimilarity s s = 1 ∧
      mergeInto similarityThreshold sense clusters ≠ none := by
  refine ⟨calculateSimilarity_self s, ?_⟩
  obtain ⟨cluster, hmem, heq⟩ := hc
  have h1 : calculateSimilarity sense.cleanDef cluster.cleanDef = 1 := by
    rw [heq]
    exact calculateSimilarity_self _
  exact mergeInto_ne_none_of_mem hmem (by rw [h1]; exact hthr)

theorem similarity_reflexive_one_witness :
    (1 : ℚ) / 2 < 1 ∧
      (calculateSimilarity [] [] = 1 ∧
        mergeInto (1 / 2) ⟨"walk".data, ["a"], "walk".data, 1⟩
          [⟨"walk fast".data, ["b"], "walk".data, 2⟩] ≠ none) :=
  ⟨by norm_num,
    similarity_reflexive_one [] (1 / 2) (by norm_num)
      ⟨"walk".data, ["a"], "walk".data, 1⟩
      [⟨"walk fast".data, ["b"], "walk".data, 2⟩]
      ⟨⟨"walk fast".data, ["b"], "walk".data, 2⟩, by decide, by decide⟩⟩

/-- **C5**.  Pagination invariant: with `0 < primarySenseCount <
maxTotalSenses`, the primary list never exceeds `primarySenseCount`, primary
plus additional never exceed `maxTotalSenses`, and `hasMore` holds exactly
when a non-empty `additionalSenses` list is present. -/
theorem pagination_invariant (allRawSenses : List RawSense)
    (primarySenseCount maxTotalSenses : Nat) (similarityThreshold : ℚ)
    (h1 : 0 < primarySenseCount) (h2 : primarySenseCount < maxTotalSenses) :
    (processSensesWithClustering allRawSenses primarySenseCount maxTotalSenses
        similarityThreshold).senses.length ≤ primarySenseCount ∧
    (processSensesWithClustering allRawSenses primarySenseCount maxTotalSenses
        similarityThreshold).senses.length +
      ((processSensesWithClustering allRawSenses primarySenseCount maxTotalSenses
        similarityThreshold).additionalSenses.getD []).length ≤ maxTotalSenses ∧
    ((processSensesWithClustering allRawSenses primarySenseCount maxTotalSenses
        similarityThreshold).hasMore = true ↔
      ∃ l, (processSensesWithClustering allRawSenses primarySenseCount maxTotalSenses
        similarityThreshold).additionalSenses = some l ∧ l ≠ []) := by
  unfold processSensesWithClustering
  set fs := finalClusters allRawSenses similarityThreshold with hfs
  by_cases hz : fs.length = 0
  · simp [hz]
  · by_cases hp : fs.length ≤ primarySenseCount
    · rw [if_neg hz, if_pos hp]
      refine ⟨hp, by simpa using le_trans hp (le_of_lt h2), by simp⟩
    · rw [if_neg hz, if_neg hp]
      simp only [List.length_take, List.length_drop]
      by_cases ha : 0 < min (maxTotalSenses - primarySenseCount) (fs.length - primarySenseCount)
      · rw [if_pos ha]
        refine ⟨by omega, by simp; omega, ?_⟩
        simp only [decide_eq_true_eq, Option.some.injEq]
        constructor
        · intro _
          refine ⟨_, rfl, ?_⟩
          intro hnil
          rw [← List.length_eq_zero] at hnil
          simp only [List.length_take, List.length_drop] at hnil
          omega
        · intro _
          exact ha
      · rw [if_neg ha]
        refine ⟨by omega, by simp; omega, by simp [ha]⟩

theorem pagination_invariant_witness :
    0 < 3 ∧ 3 < 8 ∧
      ((processSensesWithClustering [⟨"d".data, ["a", "b"]⟩] 3 8 0).senses.length ≤ 3 ∧
      (processSensesWithClustering [⟨"d".data, ["a", "b"]⟩] 3 8 0).senses.length +
        ((processSensesWithClustering [⟨"d".data, ["a", "b"]⟩] 3 8
          0).additionalSenses.getD []).length ≤ 8 ∧
      ((processSensesWithClustering [⟨"d".data, ["a", "b"]⟩] 3 8 0).hasMore = true ↔
        ∃ l, (processSensesWithClustering [⟨"d".data, ["a", "b"]⟩] 3 8
          0).additionalSenses = some l ∧ l ≠ [])) :=
  ⟨by decide, by decide,
    pagination_invariant [⟨"d".data, ["a", "b"]⟩] 3 8 0 (by decide) (by decide)⟩

/-- **C2** counterexample.  `"::x"` cleans to `":x"` (the regex `/^:\s*/`
strips a single leading colon), and cleaning again strips the second colon,
so the normalizer is not idempotent. -/
theorem cleanDefinition_not_idempotent :
    cleanDefinition (cleanDefinition [':', ':', 'x']) ≠ cleanDefinition [':', ':', 'x'] := by
  decide

/-- A successful inner-loop merge replaces exactly one cluster (the first
similar one) in place and leaves every other cluster untouched. -/
lemma mergeInto_eq_some {similarityThreshold : ℚ} {sense : Sense} :
    ∀ {clusters merged : List Sense},
      mergeInto similarityThreshold sense clusters = some merged →
      ∃ pre cluster post, clusters = pre ++ cluster :: post ∧
        merged = pre ++ mergeCluster cluster sense :: post := by
  intro clusters
  induction clusters with
  | nil => intro merged h; simp [mergeInto] at h
  | cons c rest ih =>
    intro merged h
    rw [mergeInto] at h
    split_ifs at h with hsim
    · exact ⟨[], c, rest, rfl, by simpa using h.symm⟩
    · rcases Option.map_eq_some'.mp h with ⟨rest', hrest, rfl⟩
      obtain ⟨pre, cluster, post, hc, hm⟩ := ih hrest
      exact ⟨c :: pre, cluster, post, by simp [hc], by simp [hm]⟩

/-- Any property preserved by `mergeCluster` and satisfied by every incoming
sense holds for every cluster produced by the greedy loop. -/
lemma foldl_clusterStep_invariant {P : Sense → Prop} {similarityThreshold : ℚ}
    (hmerge : ∀ c s, P c → P s → P (mergeCluster c s)) :
    ∀ {senses clusters : List Sense}, (∀ s ∈ senses, P s) → (∀ c ∈ clusters, P c) →
      ∀ c ∈ senses.foldl (clusterStep similarityThreshold) clusters, P c := by
  intro senses
  induction senses with
  | nil => intro clusters _ hc; simpa using hc
  | cons s rest ih =>
    intro clusters hs hc
    rw [List.foldl_cons]
    have hPs : P s := hs s (List.mem_cons_self _ _)
    have hrest : ∀ x ∈ rest, P x := fun x hx => hs x (List.mem_cons_of_mem _ hx)
    refine ih hrest ?_
    unfold clusterStep
    split_ifs with hzero
    · exact hc
    · cases hmi : mergeInto similarityThreshold s clusters with
      | none =>
        simp only [hmi]
        intro c hcmem
        rcases List.mem_append.mp hcmem with hcm | hcm
        · exact hc c hcm
        · rw [List.mem_singleton.mp hcm]
          exact hPs
      | some merged =>
        simp only [hmi]
        obtain ⟨pre, cluster, post, hcl, hm⟩ := mergeInto_eq_some hmi
        subst hcl hm
        intro c hcmem
        rcases List.mem_append.mp hcmem with hcm | hcm
        · exact hc c (List.mem_append_left _ hcm)
        · rcases List.mem_cons.mp hcm with rfl | hcm
          · exact hmerge _ _ (hc cluster (by simp)) hPs
          · exact hc c (by simp [hcm])

/-- Every cluster handed to the caller is one of the final clusters. -/
lemma mem_finalClusters_of_mem_outputClusters {allRawSenses : List RawSense}
    {primarySenseCount maxTotalSenses : Nat} {similarityThreshold : ℚ} {c : Sense}
    (hc : c ∈ outputClusters (processSensesWithClustering allRawSenses primarySenseCount
        maxTotalSenses similarityThreshold)) :
    c ∈ finalClusters allRawSenses similarityThreshold := by
  unfold outputClusters processSensesWithClustering at hc
  set fs := finalClusters allRawSenses similarityThreshold with hfs
  dsimp only at hc
  split_ifs at hc with hz hp ha
  · simpa using hc
  · simpa using hc
  · simp only [Option.getD_some] at hc
    rcases List.mem_append.mp hc with hm | hm
    · exact List.mem_of_mem_take hm
    · exact List.mem_of_mem_drop (List.mem_of_mem_take hm)
  · simp only [Option.getD_none, List.append_nil] at hc
    exact List.mem_of_mem_take hc

/-- Every final cluster was produced by the greedy loop. -/
lemma mem_clustersOf_of_mem_finalClusters {allRawSenses : List RawSense}
    {similarityThreshold : ℚ} {c : Sense}
    (hc : c ∈ finalClusters allRawSenses similarityThreshold) :
    c ∈ clustersOf allRawSenses similarityThreshold :=
  (sortDesc_perm _).mem_iff.mp hc

/-- **C4** counterexample.  A sense whose own synonym list repeats an entry
seeds a cluster verbatim (`clusters.push({ ...sense })` does not
deduplicate), so an output cluster can carry duplicate synonyms. -/
theorem cluster_synonyms_duplicates_counterexample :
    ¬ (∀ c ∈ outputClusters (processSensesWithClustering [⟨['d'], ["a", "a"]⟩] 3 8 (1 / 2)),
        c.synonyms.Nodup) := by
  decide

/-- **C4** amended.  When every input sense's own synonym list is
duplicate-free, every output cluster's synonym list is duplicate-free
(merges use set-union semantics; untouched seed clusters keep their sense's
already-clean list). -/
theorem cluster_synonyms_nodup (allRawSenses : List RawSense)
    (primarySenseCount maxTotalSenses : Nat) (similarityThreshold : ℚ)
    (hin : ∀ s ∈ allRawSenses, s.synonyms.Nodup) :
    ∀ c ∈ outputClusters (processSensesWithClustering allRawSenses primarySenseCount
        maxTotalSenses similarityThreshold), c.synonyms.Nodup := by
  intro c hc
  have hc2 := mem_clustersOf_of_mem_finalClusters
    (mem_finalClusters_of_mem_outputClusters hc)
  refine foldl_clusterStep_invariant (P := fun c => c.synonyms.Nodup)
    (fun c s _ _ => nodup_jsSet) ?_ (by simp) c hc2
  intro s hs
  rcases (sortDesc_perm _).mem_iff.mp hs with hs'
  rcases List.mem_map.mp hs' with ⟨raw, hraw, rfl⟩
  exact hin raw hraw

theorem cluster_synonyms_nodup_witness :
    (∀ s ∈ ([⟨['d'], ["a", "b"]⟩] : List RawSense), s.synonyms.Nodup) ∧
      (∀ c ∈ outputClusters (processSensesWithClustering [⟨['d'], ["a", "b"]⟩] 3 8 (1 / 2)),
        c.synonyms.Nodup) :=
  ⟨by decide, cluster_synonyms_nodup [⟨['d'], ["a", "b"]⟩] 3 8 (1 / 2) (by decide)⟩

/-! ### Synonym-count accounting (claim C3) -/

def sumSynonymCounts (l : List Sense) : Nat := (l.map (fun s => s.synonymCount)).sum

/-- Sum of `synonyms.length` over the input senses that have a non-empty
synonym list. -/
def inputSynonymSum (allRawSenses : List RawSense) : Nat :=
  ((allRawSenses.filter (fun s => !s.synonyms.isEmpty)).map (fun s => s.synonyms.length)).sum

def countNonEmptySenses (allRawSenses : List RawSense) : Nat :=
  (allRawSenses.filter (fun s => !s.synonyms.isEmpty)).length

lemma processedSensesOf_synonymCount_eq {allRawSenses : List RawSense} :
    ∀ s ∈ processedSensesOf allRawSenses, s.synonymCount = s.synonyms.length := by
  intro s hs
  rcases List.mem_map.mp ((sortDesc_perm _).mem_iff.mp hs) with ⟨raw, _, rfl⟩
  rfl

lemma sumSynonymCounts_append (l1 l2 : List Sense) :
    sumSynonymCounts (l1 ++ l2) = sumSynonymCounts l1 + sumSynonymCounts l2 := by
  simp [sumSynonymCounts]

lemma sumSynonymCounts_perm {l1 l2 : List Sense} (h : List.Perm l1 l2) :
    sumSynonymCounts l1 = sumSynonymCounts l2 :=
  (h.map _).sum_eq

/-- One step of the outer loop adds at most the incoming sense's synonym
count to the total cluster synonym count. -/
lemma sumSynonymCounts_clusterStep_le {similarityThreshold : ℚ} {clusters : List Sense}
    {s : Sense} (hq : ∀ c ∈ clusters, c.synonymCount = c.synonyms.length)
    (hqs : s.synonymCount = s.synonyms.length) :
    sumSynonymCounts (clusterStep similarityThreshold clusters s) ≤
      sumSynonymCounts clusters + s.synonymCount := by
  unfold clusterStep
  split_ifs with hzero
  · exact Nat.le_add_right _ _
  · cases hmi : mergeInto similarityThreshold s clusters with
    | none => simp [sumSynonymCounts_append, sumSynonymCounts]
    | some merged =>
      obtain ⟨pre, cluster, post, hcl, hm⟩ := mergeInto_eq_some hmi
      subst hcl hm
      have hmc : (mergeCluster cluster s).synonymCount ≤ cluster.synonymCount + s.synonymCount := by
        have h1 : (mergeCluster cluster s).synonymCount =
            (jsSet (cluster.synonyms ++ s.synonyms)).length := rfl
        have h2 := @length_jsSetAux_le String _ ([] : List String)
          (cluster.synonyms ++ s.synonyms)
        rw [h1, hq cluster (by simp), hqs]
        calc (jsSet (cluster.synonyms ++ s.synonyms)).length
            ≤ (cluster.synonyms ++ s.synonyms).length := h2
          _ = cluster.synonyms.length + s.synonyms.length := List.length_append _ _
      simp only [sumSynonymCounts, List.map_append, List.sum_append, List.map_cons,
        List.sum_cons]
      omega

/-- The greedy loop never increases the total synonym count. -/
lemma sumSynonymCounts_foldl_le {similarityThreshold : ℚ} :
    ∀ {senses clusters : List Sense},
      (∀ c ∈ clusters, c.synonymCount = c.synonyms.length) →
      (∀ s ∈ senses, s.synonymCount = s.synonyms.length) →
      sumSynonymCounts (senses.foldl (clusterStep similarityThreshold) clusters) ≤
        sumSynonymCounts clusters + sumSynonymCounts senses := by
  intro senses
  induction senses with
  | nil => intro clusters _ _; simp [sumSynonymCounts]
  | cons s rest ih =>
    intro clusters hq hqs
    rw [List.foldl_cons]
    have hq' : ∀ c ∈ clusterStep similarityThreshold clusters s,
        c.synonymCount = c.synonyms.length := by
      have := @foldl_clusterStep_invariant (fun c => c.synonymCount = c.synonyms.length)
        similarityThreshold (fun c x _ _ => rfl) [s] clusters
        (fun x hx => by rw [List.mem_singleton.mp hx]; exact hqs s (by simp)) hq
      simpa using this
    have hstep := @sumSynonymCounts_clusterStep_le similarityThreshold clusters s
      hq (hqs s (by simp))
    have hrest := ih hq' (fun x hx => hqs x (List.mem_cons_of_mem _ hx))
    simp only [sumSynonymCounts, List.map_cons, List.sum_cons] at *
    omega

/-- With a threshold at or above 1 the similarity test `sim > threshold`
can never pass (similarity is at most 1), so no merge ever happens. -/
lemma mergeInto_eq_none_of_one_le {similarityThreshold : ℚ}
    (hthr : 1 ≤ similarityThreshold) (s : Sense) :
    ∀ clusters, mergeInto similarityThreshold s clusters = none := by
  intro clusters
  induction clusters with
  | nil => rfl
  | cons c rest ih =>
    rw [mergeInto, if_neg (not_lt.mpr (le_trans (calculateSimilarity_le_one _ _) hthr)), ih]
    rfl

/-- With a threshold at or above 1 the loop just copies every sense with a
non-empty synonym list into its own cluster, in order. -/
lemma foldl_clusterStep_of_one_le {similarityThreshold : ℚ}
    (hthr : 1 ≤ similarityThreshold) :
    ∀ (senses clusters : List Sense),
      senses.foldl (clusterStep similarityThreshold) clusters =
        clusters ++ senses.filter (fun s => decide (s.synonymCount ≠ 0)) := by
  intro senses
  induction senses with
  | nil => intro clusters; simp
  | cons s rest ih =>
    intro clusters
    have hstep : clusterStep similarityThreshold clusters s =
        if s.synonymCount = 0 then clusters else clusters ++ [s] := by
      unfold clusterStep
      rw [mergeInto_eq_none_of_one_le hthr s clusters]
    rw [List.foldl_cons, hstep]
    split_ifs with hzero
    · rw [ih clusters, List.filter_cons_of_neg (by simp [hzero])]
    · rw [ih (clusters ++ [s]), List.filter_cons_of_pos (by simp [hzero]), List.append_assoc]
      rfl

lemma sumSynonymCounts_filter_nonzero (l : List Sense) :
    sumSynonymCounts (l.filter (fun s => decide (s.synonymCount ≠ 0))) = sumSynonymCounts l := by
  induction l with
  | nil => rfl
  | cons s rest ih =>
    by_cases h : s.synonymCount = 0
    · rw [List.filter_cons_of_neg (by simp [h])]
      simp [sumSynonymCounts, h] at *
      exact ih
    · rw [List.filter_cons_of_pos (by simp [h])]
      simp only [sumSynonymCounts, List.map_cons, List.sum_cons] at *
      omega

lemma filter_nonzero_map_toSense (allRawSenses : List RawSense) :
    (allRawSenses.map toSense).filter (fun s => decide (s.synonymCount ≠ 0)) =
      (allRawSenses.filter (fun s => !s.synonyms.isEmpty)).map toSense := by
  induction allRawSenses with
  | nil => rfl
  | cons r rest ih =>
    simp only [ne_eq, decide_not] at ih
    cases h : r.synonyms with
    | nil => simp [toSense, h, ih]
    | cons a l => simp [toSense, h, ih]

lemma sumSynonymCounts_map_toSense (allRawSenses : List RawSense) :
    sumSynonymCounts (allRawSenses.map toSense) =
      (allRawSenses.map (fun s => s.synonyms.length)).sum := by
  simp only [sumSynonymCounts, List.map_map]
  rfl

lemma inputSynonymSum_eq (allRawSenses : List RawSense) :
    inputSynonymSum allRawSenses = (allRawSenses.map (fun s => s.synonyms.length)).sum := by
  induction allRawSenses with
  | nil => rfl
  | cons r rest ih =>
    cases h : r.synonyms with
    | nil => simp [inputSynonymSum, h] at *; simpa using ih
    | cons a l => simp [inputSynonymSum, h] at *; simpa [h] using ih

/-- The caller-visible clusters always form a prefix of the sorted final
cluster list. -/
lemma outputClusters_eq_take (allRawSenses : List RawSense)
    (primarySenseCount maxTotalSenses : Nat) (similarityThreshold : ℚ) :
    ∃ k, outputClusters (processSensesWithClustering allRawSenses primarySenseCount
        maxTotalSenses similarityThreshold) =
      (finalClusters allRawSenses similarityThreshold).take k := by
  unfold outputClusters processSensesWithClustering
  set fs := finalClusters allRawSenses similarityThreshold with hfs
  dsimp only
  split_ifs with hz hp ha
  · exact ⟨0, by simp⟩
  · exact ⟨fs.length, by simp [List.take_length]⟩
  · refine ⟨primarySenseCount + (maxTotalSenses - primarySenseCount), ?_⟩
    simp only [Option.getD_some]
    exact (List.take_add fs _ _).symm
  · exact ⟨primarySenseCount, by simp⟩

lemma sumSynonymCounts_take_le (l : List Sense) (k : Nat) :
    sumSynonymCounts (l.take k) ≤ sumSynonymCounts l := by
  conv_rhs => rw [← List.take_append_drop k l]
  rw [sumSynonymCounts_append]
  exact Nat.le_add_right _ _

/-- When every final cluster fits under `maxTotalSenses`, nothing is
dropped. -/
lemma outputClusters_eq_of_length_le {allRawSenses : List RawSense}
    {primarySenseCount maxTotalSenses : Nat} {similarityThreshold : ℚ}
    (h : (finalClusters allRawSenses similarityThreshold).length ≤ maxTotalSenses) :
    outputClusters (processSensesWithClustering allRawSenses primarySenseCount
        maxTotalSenses similarityThreshold) =
      finalClusters allRawSenses similarityThreshold := by
  unfold outputClusters processSensesWithClustering
  set fs := finalClusters allRawSenses similarityThreshold with hfs
  dsimp only
  split_ifs with hz hp ha
  · simp [← List.length_eq_zero, hz]
  · simp
  · simp only [Option.getD_some]
    have hdrop : (fs.drop primarySenseCount).take (maxTotalSenses - primarySenseCount) =
        fs.drop primarySenseCount := by
      apply List.take_of_length_le
      rw [List.length_drop]
      omega
    rw [hdrop, List.take_append_drop]
  · exfalso
    rw [List.length_take, List.length_drop] at ha
    omega

/-- **C3** counterexample for the original claim: nine pairwise-identical
single-synonym senses with threshold 1 (no merge occurs) produce nine
clusters, and the ninth is silently dropped by the `maxTotalSenses = 8`
cut-off, so the output total is 8 while the input total is 9. -/
theorem clustering_sum_counterexample :
    sumSynonymCounts (outputClusters (processSensesWithClustering
        (List.replicate 9 ⟨['a'], ["s"]⟩) 3 8 1)) = 8 ∧
      inputSynonymSum (List.replicate 9 ⟨['a'], ["s"]⟩) = 9 := by
  have hcl : clustersOf (List.replicate 9 ⟨['a'], ["s"]⟩) 1 =
      (processedSensesOf (List.replicate 9 ⟨['a'], ["s"]⟩)).filter
        (fun s => decide (s.synonymCount ≠ 0)) := by
    simpa using foldl_clusterStep_of_one_le (le_refl 1)
      (processedSensesOf (List.replicate 9 ⟨['a'], ["s"]⟩)) []
  constructor
  · simp only [outputClusters, processSensesWithClustering, finalClusters, hcl]
    decide
  · decide

/-- **C3** amended.  The output synonym-count total never exceeds the input
total, and equals it whenever the threshold is at least 1 (so no merge
occurs) **and** at most `maxTotalSenses` input senses have non-empty synonym
lists (so no cluster is dropped by pagination). -/
theorem clustering_synonym_sum (allRawSenses : List RawSense)
    (primarySenseCount maxTotalSenses : Nat) (similarityThreshold : ℚ) :
    sumSynonymCounts (outputClusters (processSensesWithClustering allRawSenses
        primarySenseCount maxTotalSenses similarityThreshold)) ≤
      inputSynonymSum allRawSenses ∧
    (1 ≤ similarityThreshold → countNonEmptySenses allRawSenses ≤ maxTotalSenses →
      sumSynonymCounts (outputClusters (processSensesWithClustering allRawSenses
          primarySenseCount maxTotalSenses similarityThreshold)) =
        inputSynonymSum allRawSenses) := by
  have hsum_ps : sumSynonymCounts (processedSensesOf allRawSenses) =
      inputSynonymSum allRawSenses := by
    rw [inputSynonymSum_eq, ← sumSynonymCounts_map_toSense]
    exact sumSynonymCounts_perm (sortDesc_perm _)
  have hfinal : sumSynonymCounts (finalClusters allRawSenses similarityThreshold) =
      sumSynonymCounts (clustersOf allRawSenses similarityThreshold) :=
    sumSynonymCounts_perm (sortDesc_perm _)
  constructor
  · obtain ⟨k, hk⟩ := outputClusters_eq_take allRawSenses primarySenseCount maxTotalSenses
      similarityThreshold
    have hclusters : sumSynonymCounts (clustersOf allRawSenses similarityThreshold) ≤
        sumSynonymCounts (processedSensesOf allRawSenses) := by
      have := @sumSynonymCounts_foldl_le similarityThreshold
        (processedSensesOf allRawSenses) []
        (by simp) processedSensesOf_synonymCount_eq
      simpa [sumSynonymCounts] using this
    calc sumSynonymCounts (outputClusters _) =
        sumSynonymCounts ((finalClusters allRawSenses similarityThreshold).take k) := by rw [hk]
      _ ≤ sumSynonymCounts (finalClusters allRawSenses similarityThreshold) :=
          sumSynonymCounts_take_le _ _
      _ = sumSynonymCounts (clustersOf allRawSenses similarityThreshold) := hfinal
      _ ≤ sumSynonymCounts (processedSensesOf allRawSenses) := hclusters
      _ = inputSynonymSum allRawSenses := hsum_ps
  · intro hthr hcount
    have hcl : clustersOf allRawSenses similarityThreshold =
        (processedSensesOf allRawSenses).filter (fun s => decide (s.synonymCount ≠ 0)) := by
      simpa using foldl_clusterStep_of_one_le hthr (processedSensesOf allRawSenses) []
    have hlenfilter : ((processedSensesOf allRawSenses).filter
        (fun s => decide (s.synonymCount ≠ 0))).length = countNonEmptySenses allRawSenses := by
      have hperm := (sortDesc_perm (allRawSenses.map toSense)).filter
        (fun s => decide (s.synonymCount ≠ 0))
      rw [processedSensesOf, hperm.length_eq, filter_nonzero_map_toSense,
        List.length_map]
      rfl
    have hlen : (finalClusters allRawSenses similarityThreshold).length ≤ maxTotalSenses := by
      rw [finalClusters, (sortDesc_perm _).length_eq, hcl, hlenfilter]
      exact hcount
    rw [outputClusters_eq_of_length_le hlen, hfinal, hcl,
      sumSynonymCounts_filter_nonzero, hsum_ps]

theorem clustering_synonym_sum_witness :
    (1 : ℚ) ≤ 1 ∧ countNonEmptySenses [⟨['d'], ["a", "b"]⟩] ≤ 8 ∧
      (sumSynonymCounts (outputClusters (processSensesWithClustering
          [⟨['d'], ["a", "b"]⟩] 3 8 1)) ≤ inputSynonymSum [⟨['d'], ["a", "b"]⟩] ∧
        (1 ≤ (1 : ℚ) → countNonEmptySenses [⟨['d'], ["a", "b"]⟩] ≤ 8 →
          sumSynonymCounts (outputClusters (processSensesWithClustering
              [⟨['d'], ["a", "b"]⟩] 3 8 1)) = inputSynonymSum [⟨['d'], ["a", "b"]⟩])) :=
  ⟨le_refl 1, by decide, clustering_synonym_sum [⟨['d'], ["a", "b"]⟩] 3 8 1⟩

/-- **C6**.  In the pagination regime `primarySenseCount ≤ maxTotalSenses`:
the final cluster list and the primary list are sorted descending by
`synonymCount`; a present `additionalSenses` is exactly the contiguous slice
`[primarySenseCount, maxTotalSenses)` of the final list (and non-empty); and
the two lists together are exactly the first `maxTotalSenses` final
clusters, so clusters ranked at or beyond that index appear in neither. -/
theorem output_sorted_and_sliced (allRawSenses : List RawSense)
    (primarySenseCount maxTotalSenses : Nat) (similarityThreshold : ℚ)
    (h : primarySenseCount ≤ maxTotalSenses) :
    List.Pairwise descBy (finalClusters allRawSenses similarityThreshold) ∧
    List.Pairwise descBy (processSensesWithClustering allRawSenses primarySenseCount
        maxTotalSenses similarityThreshold).senses ∧
    (∀ l, (processSensesWithClustering allRawSenses primarySenseCount maxTotalSenses
        similarityThreshold).additionalSenses = some l →
      l = ((finalClusters allRawSenses similarityThreshold).drop primarySenseCount).take
            (maxTotalSenses - primarySenseCount) ∧ l ≠ []) ∧
    outputClusters (processSensesWithClustering allRawSenses primarySenseCount
        maxTotalSenses similarityThreshold) =
      (finalClusters allRawSenses similarityThreshold).take maxTotalSenses := by
  have hsorted : List.Pairwise descBy (finalClusters allRawSenses similarityThreshold) :=
    pairwise_sortDesc _
  refine ⟨hsorted, ?_⟩
  unfold outputClusters processSensesWithClustering
  set fs := finalClusters allRawSenses similarityThreshold with hfs
  dsimp only
  split_ifs with hz hp ha
  · rw [List.length_eq_zero] at hz
    simp [hz]
  · refine ⟨hsorted, by simp, ?_⟩
    simp only [Option.getD_none, List.append_nil]
    rw [List.take_of_length_le (le_trans hp h)]
  · refine ⟨hsorted.sublist (List.take_sublist _ _), ?_, ?_⟩
    · intro l hl
      rcases Option.some.injEq _ _ ▸ hl with rfl
      refine ⟨rfl, ?_⟩
      intro hnil
      rw [hnil] at ha
      simp at ha
    · simp only [Option.getD_some]
      rw [← List.take_add fs primarySenseCount (maxTotalSenses - primarySenseCount)]
      congr 1
      omega
  · refine ⟨hsorted.sublist (List.take_sublist _ _), by simp, ?_⟩
    simp only [Option.getD_none, List.append_nil]
    rw [List.length_take, List.length_drop] at ha
    push_neg at hp
    have hm : maxTotalSenses = primarySenseCount := by omega
    rw [hm]

theorem output_sorted_and_sliced_witness :
    3 ≤ 8 ∧
      (List.Pairwise descBy (finalClusters [⟨['d'], ["a", "b"]⟩] (1 / 2)) ∧
      List.Pairwise descBy (processSensesWithClustering [⟨['d'], ["a", "b"]⟩] 3 8
          (1 / 2)).senses ∧
      (∀ l, (processSensesWithClustering [⟨['d'], ["a", "b"]⟩] 3 8
          (1 / 2)).additionalSenses = some l →
        l = ((finalClusters [⟨['d'], ["a", "b"]⟩] (1 / 2)).drop 3).take (8 - 3) ∧ l ≠ []) ∧
      outputClusters (processSensesWithClustering [⟨['d'], ["a", "b"]⟩] 3 8 (1 / 2)) =
        (finalClusters [⟨['d'], ["a", "b"]⟩] (1 / 2)).take 8) :=
  ⟨by decide, output_sorted_and_sliced [⟨['d'], ["a", "b"]⟩] 3 8 (1 / 2) (by decide)⟩

/-! ### Ghost-instrumented clustering (claim C7)

To reason about which senses were merged into a cluster, the greedy loop is
replayed with each cluster paired with its member list (seed first, merged
senses appended in processing order).  `clustersWithMembers_fst` proves that
dropping the member lists gives back the real `clustersOf`. -/

/-- The replacement rule of the merge step, applied along a member list:
a later member's definition replaces the running one only when strictly
longer. -/
def pickLonger (d : List Char) (x : Sense) : List Char :=
  if d.length < x.definition.length then x.definition else d

def longestFirstDef : List Sense → List Char
  | [] => []
  | m :: rest => rest.foldl pickLonger m.definition

def mergeIntoG (similarityThreshold : ℚ) (sense : Sense) :
    List (Sense × List Sense) → Option (List (Sense × List Sense))
  | [] => none
  | entry :: rest =>
    if similarityThreshold < calculateSimilarity sense.cleanDef entry.1.cleanDef then
      some ((mergeCluster entry.1 sense, entry.2 ++ [sense]) :: rest)
    else
      (mergeIntoG similarityThreshold sense rest).map (entry :: ·)

def clusterStepG (similarityThreshold : ℚ) (clusters : List (Sense × List Sense))
    (sense : Sense) : List (Sense × List Sense) :=
  if sense.synonymCount = 0 then clusters
  else
    match mergeIntoG similarityThreshold sense clusters with
    | some merged => merged
    | none => clusters ++ [(sense, [sense])]

def clustersWithMembers (allRawSenses : List RawSense) (similarityThreshold : ℚ) :
    List (Sense × List Sense) :=
  (processedSensesOf allRawSenses).foldl (clusterStepG similarityThreshold) []

lemma mergeIntoG_fst {similarityThreshold : ℚ} {sense : Sense} :
    ∀ (l : List (Sense × List Sense)),
      (mergeIntoG similarityThreshold sense l).map (List.map Prod.fst) =
        mergeInto similarityThreshold sense (l.map Prod.fst) := by
  intro l
  induction l with
  | nil => rfl
  | cons e rest ih =>
    rw [mergeIntoG, List.map_cons, mergeInto]
    by_cases hsim : similarityThreshold < calculateSimilarity sense.cleanDef e.1.cleanDef
    · rw [if_pos hsim, if_pos hsim]
      rfl
    · rw [if_neg hsim, if_neg hsim]
      cases hmi : mergeIntoG similarityThreshold sense rest with
      | none =>
        rw [hmi] at ih
        rw [← ih]
        simp [hmi]
      | some g =>
        rw [hmi] at ih
        rw [← ih]
        simp [hmi]

lemma clusterStepG_fst {similarityThreshold : ℚ} {clusters : List (Sense × List Sense)}
    {sense : Sense} :
    (clusterStepG similarityThreshold clusters sense).map Prod.fst =
      clusterStep similarityThreshold (clusters.map Prod.fst) sense := by
  unfold clusterStepG clusterStep
  split_ifs with hzero
  · rfl
  · cases hmi : mergeIntoG similarityThreshold sense clusters with
    | none =>
      have := @mergeIntoG_fst similarityThreshold sense clusters
      rw [hmi] at this
      rw [← this]
      simp
    | some g =>
      have := @mergeIntoG_fst similarityThreshold sense clusters
      rw [hmi] at this
      rw [← this]
      simp

lemma foldl_clusterStepG_fst {similarityThreshold : ℚ} :
    ∀ (senses : List Sense) (gcs : List (Sense × List Sense)),
      (senses.foldl (clusterStepG similarityThreshold) gcs).map Prod.fst =
        senses.foldl (clusterStep similarityThreshold) (gcs.map Prod.fst) := by
  intro senses
  induction senses with
  | nil => intro gcs; rfl
  | cons s rest ih =>
    intro gcs
    rw [List.foldl_cons, List.foldl_cons, ih, clusterStepG_fst]

lemma clustersWithMembers_fst {allRawSenses : List RawSense} {similarityThreshold : ℚ} :
    (clustersWithMembers allRawSenses similarityThreshold).map Prod.fst =
      clustersOf allRawSenses similarityThreshold :=
  foldl_clusterStepG_fst _ []

lemma mergeIntoG_eq_some {similarityThreshold : ℚ} {sense : Sense} :
    ∀ {l merged : List (Sense × List Sense)},
      mergeIntoG similarityThreshold sense l = some merged →
      ∃ pre e post, l = pre ++ e :: post ∧
        merged = pre ++ (mergeCluster e.1 sense, e.2 ++ [sense]) :: post := by
  intro l
  induction l with
  | nil => intro merged h; simp [mergeIntoG] at h
  | cons e rest ih =>
    intro merged h
    rw [mergeIntoG] at h
    split_ifs at h with hsim
    · exact ⟨[], e, rest, rfl, by simpa using h.symm⟩
    · rcases Option.map_eq_some'.mp h with ⟨rest', hrest, rfl⟩
      obtain ⟨pre, e', post, hc, hm⟩ := ih hrest
      exact ⟨e :: pre, e', post, by simp [hc], by simp [hm]⟩

lemma longestFirstDef_append (ms : List Sense) (s : Sense) (h : ms ≠ []) :
    longestFirstDef (ms ++ [s]) =
      if (longestFirstDef ms).length < s.definition.length then s.definition
      else longestFirstDef ms := by
  cases ms with
  | nil => exact absurd rfl h
  | cons m rest =>
    rw [List.cons_append, longestFirstDef, longestFirstDef, List.foldl_append]
    rfl

lemma foldl_pickLonger_init_le (init : List Char) (l : List Sense) :
    init.length ≤ (l.foldl pickLonger init).length := by
  induction l generalizing init with
  | nil => exact le_refl _
  | cons x rest ih =>
    rw [List.foldl_cons]
    refine le_trans ?_ (ih (pickLonger init x))
    unfold pickLonger
    split_ifs with hc
    · exact le_of_lt hc
    · exact le_refl _

lemma foldl_pickLonger_mem_le {x : Sense} {l : List Sense} (hx : x ∈ l) (init : List Char) :
    x.definition.length ≤ (l.foldl pickLonger init).length := by
  induction l generalizing init with
  | nil => simp at hx
  | cons y rest ih =>
    rw [List.foldl_cons]
    rcases List.mem_cons.mp hx with rfl | hx'
    · refine le_trans ?_ (foldl_pickLonger_init_le (pickLonger init x) rest)
      unfold pickLonger
      split_ifs with hc
      · exact le_refl _
      · exact le_of_not_lt hc
    · exact ih hx' _

lemma foldl_pickLonger_mem (init : List Char) (l : List Sense) :
    l.foldl pickLonger init = init ∨
      l.foldl pickLonger init ∈ l.map (fun x => x.definition) := by
  induction l generalizing init with
  | nil => exact Or.inl rfl
  | cons x rest ih =>
    rw [List.foldl_cons]
    rcases ih (pickLonger init x) with h | h
    · rw [h]
      unfold pickLonger
      split_ifs with hc
      · exact Or.inr (by simp)
      · exact Or.inl rfl
    · exact Or.inr (List.mem_cons_of_mem _ h)

lemma longestFirstDef_mem {ms : List Sense} (h : ms ≠ []) :
    longestFirstDef ms ∈ ms.map (fun x => x.definition) := by
  cases ms with
  | nil => exact absurd rfl h
  | cons m rest =>
    rw [longestFirstDef]
    rcases foldl_pickLonger_mem m.definition rest with h' | h'
    · rw [h']
      simp
    · exact List.mem_cons_of_mem _ h'

lemma longestFirstDef_le {ms : List Sense} {x : Sense} (hx : x ∈ ms) :
    x.definition.length ≤ (longestFirstDef ms).length := by
  cases ms with
  | nil => simp at hx
  | cons m rest =>
    rw [longestFirstDef]
    rcases List.mem_cons.mp hx with rfl | hx'
    · exact foldl_pickLonger_init_le _ _
    · exact foldl_pickLonger_mem_le hx' _

/-- The ghost invariant: every tracked cluster has a non-empty member list
drawn from `allSenses`, and its `definition` field is exactly the
longest-with-earliest-tie-win fold of its members' definitions. -/
def GoodEntry (allSenses : List Sense) (e : Sense × List Sense) : Prop :=
  e.2 ≠ [] ∧ (∀ x ∈ e.2, x ∈ allSenses) ∧ e.1.definition = longestFirstDef e.2

lemma goodEntry_merge {allSenses : List Sense} {e : Sense × List Sense} {s : Sense}
    (he : GoodEntry allSenses e) (hs : s ∈ allSenses) :
    GoodEntry allSenses (mergeCluster e.1 s, e.2 ++ [s]) := by
  obtain ⟨hne, hmem, hdef⟩ := he
  refine ⟨by simp, ?_, ?_⟩
  · intro x hx
    rcases List.mem_append.mp hx with hx | hx
    · exact hmem x hx
    · rw [List.mem_singleton.mp hx]
      exact hs
  · rw [longestFirstDef_append _ _ hne, ← hdef]
    rfl

lemma foldl_clusterStepG_good {similarityThreshold : ℚ} {allSenses : List Sense} :
    ∀ {senses : List Sense} {gcs : List (Sense × List Sense)},
      (∀ s ∈ senses, s ∈ allSenses) → (∀ e ∈ gcs, GoodEntry allSenses e) →
      ∀ e ∈ senses.foldl (clusterStepG similarityThreshold) gcs, GoodEntry allSenses e := by
  intro senses
  induction senses with
  | nil => intro gcs _ hg; simpa using hg
  | cons s rest ih =>
    intro gcs hs hg
    rw [List.foldl_cons]
    refine ih (fun x hx => hs x (List.mem_cons_of_mem _ hx)) ?_
    unfold clusterStepG
    split_ifs with hzero
    · exact hg
    · cases hmi : mergeIntoG similarityThreshold s gcs with
      | none =>
        intro e he
        rcases List.mem_append.mp he with he | he
        · exact hg e he
        · rw [List.mem_singleton.mp he]
          exact ⟨by simp, fun x hx => by
            rw [List.mem_singleton.mp hx]; exact hs s (by simp), by simp [longestFirstDef]⟩
      | some merged =>
        obtain ⟨pre, e', post, hc, hm⟩ := mergeIntoG_eq_some hmi
        subst hc hm
        intro e he
        rcases List.mem_append.mp he with he | he
        · exact hg e (List.mem_append_left _ he)
        · rcases List.mem_cons.mp he with rfl | he
          · exact goodEntry_merge (hg e' (by simp)) (hs s (by simp))
          · exact hg e (by simp [he])

lemma clustersWithMembers_good {allRawSenses : List RawSense} {similarityThreshold : ℚ} :
    ∀ e ∈ clustersWithMembers allRawSenses similarityThreshold,
      GoodEntry (processedSensesOf allRawSenses) e :=
  foldl_clusterStepG_good (fun s hs => hs) (by simp)

/-- **C7**.  Every output cluster's `definition` is the definition of one of
the senses merged into it, of maximal length among them, and equal to the
first-longest fold over the members in processing order (replacement only on
strictly greater length, so ties keep the earlier member). -/
theorem cluster_definition_longest (allRawSenses : List RawSense)
    (primarySenseCount maxTotalSenses : Nat) (similarityThreshold : ℚ) :
    ∀ c ∈ outputClusters (processSensesWithClustering allRawSenses primarySenseCount
        maxTotalSenses similarityThreshold),
      ∃ ms, (c, ms) ∈ clustersWithMembers allRawSenses similarityThreshold ∧ ms ≠ [] ∧
        (∀ x ∈ ms, x ∈ processedSensesOf allRawSenses) ∧
        c.definition ∈ ms.map (fun x => x.definition) ∧
        (∀ x ∈ ms, x.definition.length ≤ c.definition.length) ∧
        c.definition = longestFirstDef ms := by
  intro c hc
  have hc2 : c ∈ clustersOf allRawSenses similarityThreshold :=
    mem_clustersOf_of_mem_finalClusters (mem_finalClusters_of_mem_outputClusters hc)
  rw [← clustersWithMembers_fst] at hc2
  rcases List.mem_map.mp hc2 with ⟨⟨c', ms⟩, hmem, hfst⟩
  obtain rfl : c' = c := hfst
  obtain ⟨hne, hsub, hdef⟩ := clustersWithMembers_good _ hmem
  refine ⟨ms, hmem, hne, hsub, ?_, ?_, hdef⟩
  · rw [hdef]
    exact longestFirstDef_mem hne
  · intro x hx
    rw [hdef]
    exact longestFirstDef_le hx

theorem cluster_definition_longest_witness :
    (⟨['d'], ["a", "b"], cleanDefinition ['d'], 2⟩ : Sense) ∈
        outputClusters (processSensesWithClustering [⟨['d'], ["a", "b"]⟩] 3 8 (1 / 2)) ∧
      ∃ ms, ((⟨['d'], ["a", "b"], cleanDefinition ['d'], 2⟩ : Sense), ms) ∈
          clustersWithMembers [⟨['d'], ["a", "b"]⟩] (1 / 2) ∧ ms ≠ [] ∧
        (∀ x ∈ ms, x ∈ processedSensesOf [⟨['d'], ["a", "b"]⟩]) ∧
        (⟨['d'], ["a", "b"], cleanDefinition ['d'], 2⟩ : Sense).definition ∈
          ms.map (fun x => x.definition) ∧
        (∀ x ∈ ms, x.definition.length ≤
          (⟨['d'], ["a", "b"], cleanDefinition ['d'], 2⟩ : Sense).definition.length) ∧
        (⟨['d'], ["a", "b"], cleanDefinition ['d'], 2⟩ : Sense).definition =
          longestFirstDef ms :=
  ⟨by decide,
    cluster_definition_longest [⟨['d'], ["a", "b"]⟩] 3 8 (1 / 2)
      ⟨['d'], ["a", "b"], cleanDefinition ['d'], 2⟩ (by decide)⟩

/-! ### The cache key generator `generateCacheKey` (source lines 159–168)

```js
function generateCacheKey(object, prompt) {
    const ordered = Object.keys(object)
        .sort()
        .reduce((obj, key) => {
            obj[key] = object[key];
            return obj;
        }, {});
    const str = JSON.stringify(ordered) + prompt;
    return createHash('sha256').update(str).digest('hex');
}
```

Payload objects are modelled as insertion-ordered association lists with the
value shapes that occur in this endpoint's payloads (strings, an omitted
`category` as `undefined`, the synonym list as a string array; integers cover
the numeric case).  `.sort()` on the non-numeric keys used here is a plain
lexicographic sort; the rebuilt object serializes in that sorted key order,
with `undefined`-valued keys omitted by `JSON.stringify`. -/

inductive JsVal where
  | str (s : String)
  | num (n : Int)
  | boolVal (b : Bool)
  | null
  | undef
  | arr (elems : List String)
deriving DecidableEq

def hexDigit (n : Nat) : Char :=
  if n < 10 then Char.ofNat (48 + n) else Char.ofNat (87 + n)

/-- `JSON.stringify` string escaping. -/
def escapeJsonChar (c : Char) : List Char :=
  if c = '"' then ['\\', '"']
  else if c = '\\' then ['\\', '\\']
  else if c.toNat = 8 then ['\\', 'b']
  else if c.toNat = 9 then ['\\', 't']
  else if c.toNat = 10 then ['\\', 'n']
  else if c.toNat = 12 then ['\\', 'f']
  else if c.toNat = 13 then ['\\', 'r']
  else if c.toNat < 32 then ['\\', 'u', '0', '0', hexDigit (c.toNat / 16), hexDigit (c.toNat % 16)]
  else [c]

def jsonQuote (s : String) : String :=
  ⟨'"' :: (s.data.map escapeJsonChar).join ++ ['"']⟩

def stringifyVal : JsVal → Option String
  | .str s => some (jsonQuote s)
  | .num n => some (toString n)
  | .boolVal b => some (if b then "true" else "false")
  | .null => some "null"
  | .undef => none
  | .arr elems => some ("[" ++ String.intercalate "," (elems.map jsonQuote) ++ "]")

def stringifyObj (o : List (String × JsVal)) : String :=
  "\x7b" ++ String.intercalate ","
      (o.filterMap (fun e => (stringifyVal e.2).map (fun v => jsonQuote e.1 ++ ":" ++ v))) ++
    "\x7d"

/-- `Object.keys(object).sort()` with the rebuild `reduce`: a stable
insertion sort of the entries, ascending by key. -/
def insertEntry (x : String × JsVal) : List (String × JsVal) → List (String × JsVal)
  | [] => [x]
  | y :: ys => if x.1 ≤ y.1 then x :: y :: ys else y :: insertEntry x ys

def sortEntries (l : List (String × JsVal)) : List (String × JsVal) := l.foldr insertEntry []

/-! SHA-256 (FIPS 180-4) over a byte list, words as `Nat` reduced mod `2^32`. -/

def w32 (n : Nat) : Nat := n % 4294967296

def rotr32 (n x : Nat) : Nat := w32 (x / 2 ^ n + x % 2 ^ n * 2 ^ (32 - n))

def shr32 (n x : Nat) : Nat := x / 2 ^ n

def bigSigma0 (x : Nat) : Nat := rotr32 2 x ^^^ rotr32 13 x ^^^ rotr32 22 x

def bigSigma1 (x : Nat) : Nat := rotr32 6 x ^^^ rotr32 11 x ^^^ rotr32 25 x

def smallSigma0 (x : Nat) : Nat := rotr32 7 x ^^^ rotr32 18 x ^^^ shr32 3 x

def smallSigma1 (x : Nat) : Nat := rotr32 17 x ^^^ rotr32 19 x ^^^ shr32 10 x

def chFn (x y z : Nat) : Nat := (x &&& y) ^^^ ((x ^^^ 4294967295) &&& z)

def majFn (x y z : Nat) : Nat := (x &&& y) ^^^ (x &&& z) ^^^ (y &&& z)

def sha256K : List Nat :=
  [1116352408, 1899447441, 3049323471, 3921009573, 961987163, 1508970993, 2453635748,
   2870763221, 3624381080, 310598401, 607225278, 1426881987, 1925078388, 2162078206,
   2614888103, 3248222580, 3835390401, 4022224774, 264347078, 604807628, 770255983, 1249150122,
   1555081692, 1996064986, 2554220882, 2821834349, 2952996808, 3210313671, 3336571891,
   3584528711, 113926993, 338241895, 666307205, 773529912, 1294757372, 1396182291, 1695183700,
   1986661051, 2177026350, 2456956037, 2730485921, 2820302411, 3259730800, 3345764771,
   3516065817, 3600352804, 4094571909, 275423344, 430227734, 506948616, 659060556, 883997877,
   958139571, 1322822218, 1537002063, 1747873779, 1955562222, 2024104815, 2227730452,
   2361852424, 2428436474, 2756734187, 3204031479, 3329325298]

def sha256H0 : List Nat :=
  [1779033703, 3144134277, 1013904242, 2773480762, 1359893119, 2600822924, 528734635,
   1541459225]

/-- `k` bytes of `n`, big-endian. -/
def beBytes (k : Nat) (n : Nat) : List Nat :=
  (List.range k).map (fun i => n / 2 ^ (8 * (k - 1 - i)) % 256)

def sha256Pad (msg : List Nat) : List Nat :=
  let padLen := (64 - (msg.length + 9) % 64) % 64
  msg ++ [128] ++ List.replicate padLen 0 ++ beBytes 8 (msg.length * 8)

def bytesToWords : List Nat → List Nat
  | b0 :: b1 :: b2 :: b3 :: rest => (((b0 * 256 + b1) * 256 + b2) * 256 + b3) :: bytesToWords rest
  | _ => []

def scheduleStep (w : List Nat) : List Nat :=
  w ++ [w32 (smallSigma1 (w.getD (w.length - 2) 0) + w.getD (w.length - 7) 0 +
    smallSigma0 (w.getD (w.length - 15) 0) + w.getD (w.length - 16) 0)]

def schedule (w : List Nat) : List Nat :=
  (List.range 48).foldl (fun acc _ => scheduleStep acc) w

def sha256Round (state : List Nat) (kw : Nat × Nat) : List Nat :=
  match state with
  | [a, b, c, d, e, f, g, h] =>
    let t1 := w32 (h + bigSigma1 e + chFn e f g + kw.1 + kw.2)
    let t2 := w32 (bigSigma0 a + majFn a b c)
    [w32 (t1 + t2), a, b, c, w32 (d + t1), e, f, g]
  | s => s

def sha256Compress (h : List Nat) (block : List Nat) : List Nat :=
  let w := schedule (bytesToWords block)
  let final := (sha256K.zip w).foldl sha256Round h
  (h.zip final).map (fun p => w32 (p.1 + p.2))

def sha256Blocks (h : List Nat) (l : List Nat) : List Nat :=
  if l.isEmpty then h else sha256Blocks (sha256Compress h (l.take 64)) (l.drop 64)
termination_by l.length
decreasing_by
  rename_i hne
  rw [List.isEmpty_iff] at hne
  cases l with
  | nil => exact absurd rfl hne
  | cons a t =>
    rw [List.length_drop]
    simp only [List.length_cons]
    omega

def sha256 (msg : List Nat) : List Nat :=
  ((sha256Blocks sha256H0 (sha256Pad msg)).map (beBytes 4)).join

def toHexString (bytes : List Nat) : String :=
  ⟨(bytes.map (fun b => [hexDigit (b / 16), hexDigit (b % 16)])).join⟩

def generateCacheKey (object : List (String × JsVal)) (prompt : String) : String :=
  let ordered := sortEntries object
  let str := stringifyObj ordered ++ prompt
  toHexString (sha256 ((String.toUTF8 str).toList.map (fun b => b.toNat)))

lemma insertEntry_perm (x : String × JsVal) (l : List (String × JsVal)) :
    List.Perm (insertEntry x l) (x :: l) := by
  induction l with
  | nil => rfl
  | cons y ys ih =>
    by_cases h : x.1 ≤ y.1
    · rw [insertEntry, if_pos h]
    · rw [insertEntry, if_neg h]
      exact (ih.cons y).trans (List.Perm.swap x y ys)

lemma sortEntries_perm (l : List (String × JsVal)) : List.Perm (sortEntries l) l := by
  induction l with
  | nil => rfl
  | cons x xs ih => exact (insertEntry_perm x (sortEntries xs)).trans (ih.cons x)

/-- Ascending order by key. -/
def entryLe (a b : String × JsVal) : Prop := a.1 ≤ b.1

lemma pairwise_insertEntry {x : String × JsVal} {l : List (String × JsVal)}
    (h : l.Pairwise entryLe) : (insertEntry x l).Pairwise entryLe := by
  induction l with
  | nil => simp [insertEntry, entryLe]
  | cons y ys ih =>
    rcases List.pairwise_cons.mp h with ⟨hy, hys⟩
    by_cases hc : x.1 ≤ y.1
    · rw [insertEntry, if_pos hc]
      refine List.pairwise_cons.mpr ⟨?_, h⟩
      intro z hz
      rcases List.mem_cons.mp hz with rfl | hz
      · exact hc
      · exact le_trans hc (hy z hz)
    · rw [insertEntry, if_neg hc]
      refine List.pairwise_cons.mpr ⟨?_, ih hys⟩
      intro z hz
      rcases List.mem_cons.mp ((insertEntry_perm x ys).mem_iff.mp hz) with rfl | hz
      · exact le_of_lt (lt_of_not_le hc)
      · exact hy z hz

lemma pairwise_sortEntries (l : List (String × JsVal)) : (sortEntries l).Pairwise entryLe := by
  induction l with
  | nil => simp [sortEntries]
  | cons x xs ih => exact pairwise_insertEntry ih

lemma pairwise_keyLt_of {l : List (String × JsVal)} (hnd : (l.map Prod.fst).Nodup)
    (hle : l.Pairwise entryLe) : l.Pairwise (fun a b => a.1 < b.1) := by
  have hne : l.Pairwise (fun a b => a.1 ≠ b.1) := List.pairwise_map.mp hnd
  exact (hle.and hne).imp fun h => lt_of_le_of_ne h.1 h.2

/-- Two payloads that are equal as key-to-value maps (same entries up to
order, keys unique) canonicalize to the same sorted entry list. -/
lemma sortEntries_eq_of_perm {p1 p2 : List (String × JsVal)}
    (hnd : (p1.map Prod.fst).Nodup) (hperm : List.Perm p1 p2) :
    sortEntries p1 = sortEntries p2 := by
  have hp : List.Perm (sortEntries p1) (sortEntries p2) :=
    (sortEntries_perm p1).trans (hperm.trans (sortEntries_perm p2).symm)
  have hnd1 : ((sortEntries p1).map Prod.fst).Nodup :=
    (((sortEntries_perm p1).map Prod.fst).nodup_iff).mpr hnd
  have hnd2 : ((sortEntries p2).map Prod.fst).Nodup :=
    ((hp.map Prod.fst).nodup_iff).mp hnd1
  have hs1 := pairwise_keyLt_of hnd1 (pairwise_sortEntries p1)
  have hs2 := pairwise_keyLt_of hnd2 (pairwise_sortEntries p2)
  haveI : IsAntisymm (String × JsVal) (fun a b => a.1 < b.1) :=
    ⟨fun a b h1 h2 => absurd (lt_trans h1 h2) (lt_irrefl _)⟩
  exact List.eq_of_perm_of_sorted hp hs1 hs2

/-- **C8**.  The cache key does not depend on the payload's key insertion
order: permuting the (unique-keyed) entries leaves the sorted canonical
serialization, hence the SHA-256 hex digest, unchanged; and the derivation
is a pure function of the payload map and the prompt, so identical inputs
always give identical digests (`p2 := p1`). -/
theorem cacheKey_order_insensitive (p1 p2 : List (String × JsVal)) (prompt : String)
    (hnd : (p1.map Prod.fst).Nodup) (hperm : List.Perm p1 p2) :
    generateCacheKey p1 prompt = generateCacheKey p2 prompt := by
  unfold generateCacheKey
  rw [sortEntries_eq_of_perm hnd hperm]

theorem cacheKey_order_insensitive_witness :
    (([("b", JsVal.num 2), ("a", JsVal.num 1)].map Prod.fst).Nodup) ∧
      List.Perm [("b", JsVal.num 2), ("a", JsVal.num 1)]
        [("a", JsVal.num 1), ("b", JsVal.num 2)] ∧
      generateCacheKey [("b", JsVal.num 2), ("a", JsVal.num 1)] "p" =
        generateCacheKey [("a", JsVal.num 1), ("b", JsVal.num 2)] "p" :=
  ⟨by decide, by decide,
    cacheKey_order_insensitive [("b", JsVal.num 2), ("a", JsVal.num 1)]
      [("a", JsVal.num 1), ("b", JsVal.num 2)] "p" (by decide) (by decide)⟩

/-! ### The request orchestrator (handler, source lines 342–422)

The handler's pure decision core, with the network/cache collaborators as
parameters: `rawSenses` stands for the senses extracted from the
Merriam-Webster response (only consulted on the discovery path), and
`apiResponse` for the classification object returned by the cache or the LLM
gateway (only consulted on the classification paths, which are the same with
or without a blob store).  JavaScript property assignment `obj[k] = v`
updates an existing key in place and otherwise appends it. -/

def jsLookup (o : List (String × JsVal)) (k : String) : Option JsVal :=
  match o with
  | [] => none
  | e :: rest => if e.1 = k then some e.2 else jsLookup rest k

def setField (o : List (String × JsVal)) (k : String) (v : JsVal) : List (String × JsVal) :=
  if o.any (fun e => e.1 == k) then o.map (fun e => if e.1 = k then (k, v) else e)
  else o ++ [(k, v)]

lemma jsLookup_append_right {o : List (String × JsVal)} {k : String}
    (h : ∀ e ∈ o, e.1 ≠ k) (tail : List (String × JsVal)) :
    jsLookup (o ++ tail) k = jsLookup tail k := by
  induction o with
  | nil => rfl
  | cons e rest ih =>
    rw [List.cons_append, jsLookup, if_neg (h e (by simp))]
    exact ih fun x hx => h x (List.mem_cons_of_mem _ hx)

lemma jsLookup_setField_self (o : List (String × JsVal)) (k : String) (v : JsVal) :
    jsLookup (setField o k v) k = some v := by
  unfold setField
  split_ifs with hany
  · induction o with
    | nil => simp at hany
    | cons e rest ih =>
      by_cases he : e.1 = k
      · rw [List.map_cons, if_pos he, jsLookup, if_pos rfl]
      · rw [List.map_cons, if_neg he, jsLookup, if_neg he]
        apply ih
        simp only [List.any_cons, Bool.or_eq_true, beq_iff_eq] at hany
        exact (hany.resolve_left he).symm ▸ rfl
  · rw [jsLookup_append_right ?_ [(k, v)], jsLookup, if_pos rfl]
    intro e he
    simp only [List.any_eq_true, beq_iff_eq, not_exists, not_and] at hany
    exact hany e he

lemma jsLookup_map_update_other (o : List (String × JsVal)) (k k' : String) (v : JsVal)
    (hk : k' ≠ k) :
    jsLookup (o.map (fun e => if e.1 = k then (k, v) else e)) k' = jsLookup o k' := by
  induction o with
  | nil => rfl
  | cons e rest ih =>
    by_cases he : e.1 = k
    · rw [List.map_cons, if_pos he, jsLookup, if_neg (fun hc => hk hc.symm), jsLookup,
        if_neg (fun hc => hk (hc.symm.trans he))]
      exact ih
    · rw [List.map_cons, if_neg he, jsLookup, jsLookup]
      by_cases he' : e.1 = k'
      · rw [if_pos he', if_pos he']
      · rw [if_neg he', if_neg he']
        exact ih

lemma jsLookup_append_single_other (o : List (String × JsVal)) (k k' : String) (v : JsVal)
    (hk : k' ≠ k) : jsLookup (o ++ [(k, v)]) k' = jsLookup o k' := by
  induction o with
  | nil =>
    show jsLookup [(k, v)] k' = none
    unfold jsLookup
    rw [if_neg (fun hc => hk hc.symm)]
    rfl
  | cons e rest ih =>
    rw [List.cons_append, jsLookup, jsLookup]
    by_cases he' : e.1 = k'
    · rw [if_pos he', if_pos he']
    · rw [if_neg he', if_neg he']
      exact ih

lemma jsLookup_setField_other (o : List (String × JsVal)) (k k' : String) (v : JsVal)
    (hk : k' ≠ k) : jsLookup (setField o k v) k' = jsLookup o k' := by
  unfold setField
  split_ifs with hany
  · exact jsLookup_map_update_other o k k' v hk
  · exact jsLookup_append_single_other o k k' v hk

inductive HandlerBody where
  | classification (obj : List (String × JsVal))
  | disambiguation (result : ClusteringResult)
  | errorMsg (msg : String)
deriving DecidableEq

structure HandlerResponse where
  statusCode : Nat
  body : HandlerBody
deriving DecidableEq

/-- `apiResponse.hub_word = word; apiResponse.part_of_speech = partOfSpeech;`
(source lines 361 and 406–407), applied in that order. -/
def overrideHubFields (word partOfSpeech : String) (apiResponse : List (String × JsVal)) :
    List (String × JsVal) :=
  setField (setField apiResponse "hub_word" (JsVal.str word)) "part_of_speech"
    (JsVal.str partOfSpeech)

/-- The POST-path branching of the handler (source lines 347–416): missing
`word`/`partOfSpeech` (falsy = empty here) → 400; caller-supplied non-empty
`synonyms` → State A (classification with overridden hub fields); otherwise
discovery: zero clusters → 404, exactly one primary cluster with no overflow
→ auto State A, else the disambiguation payload.  The clustering call uses
the source's default parameters `(3, 8, 0.5)`. -/
def handlerCore (word partOfSpeech : String) (synonyms : Option (List String))
    (rawSenses : List RawSense) (apiResponse : List (String × JsVal)) : HandlerResponse :=
  if word = "" ∨ partOfSpeech = "" then
    ⟨400, .errorMsg "Word and Part of Speech are required."⟩
  else if 0 < (synonyms.getD []).length then
    ⟨200, .classification (overrideHubFields word partOfSpeech apiResponse)⟩
  else
    let processedSenses := processSensesWithClustering rawSenses 3 8 (1 / 2)
    if processedSenses.senses.length = 0 then
      ⟨404, .errorMsg ("No synonyms found for \"" ++ word ++ "\" as a " ++ partOfSpeech ++ ".")⟩
    else if processedSenses.senses.length = 1 ∧ processedSenses.hasMore = false then
      ⟨200, .classification (overrideHubFields word partOfSpeech apiResponse)⟩
    else
      ⟨200, .disambiguation processedSenses⟩

lemma overrideHub_hub (word partOfSpeech : String) (resp : List (String × JsVal)) :
    jsLookup (overrideHubFields word partOfSpeech resp) "hub_word" =
      some (JsVal.str word) := by
  unfold overrideHubFields
  rw [jsLookup_setField_other _ _ _ _ (by decide), jsLookup_setField_self]

lemma overrideHub_pos (word partOfSpeech : String) (resp : List (String × JsVal)) :
    jsLookup (overrideHubFields word partOfSpeech resp) "part_of_speech" =
      some (JsVal.str partOfSpeech) :=
  jsLookup_setField_self _ _ _

lemma overrideHub_frame (word partOfSpeech : String) (resp : List (String × JsVal))
    (k : String) (h1 : k ≠ "hub_word") (h2 : k ≠ "part_of_speech") :
    jsLookup (overrideHubFields word partOfSpeech resp) k = jsLookup resp k := by
  unfold overrideHubFields
  rw [jsLookup_setField_other _ _ _ _ h2, jsLookup_setField_other _ _ _ _ h1]

/-- **C9**.  Whenever the handler returns a classification body (the two
State A success paths), the status is 200, `hub_word` and `part_of_speech`
are overwritten with the request's `word` and `partOfSpeech`, and every
other field of the collaborator's object is passed through unchanged. -/
theorem handler_overrides_hub_fields (word partOfSpeech : String)
    (synonyms : Option (List String)) (rawSenses : List RawSense)
    (apiResponse : List (String × JsVal)) (obj : List (String × JsVal))
    (h : (handlerCore word partOfSpeech synonyms rawSenses apiResponse).body =
      HandlerBody.classification obj) :
    (handlerCore word partOfSpeech synonyms rawSenses apiResponse).statusCode = 200 ∧
    jsLookup obj "hub_word" = some (JsVal.str word) ∧
    jsLookup obj "part_of_speech" = some (JsVal.str partOfSpeech) ∧
    ∀ k, k ≠ "hub_word" → k ≠ "part_of_speech" →
      jsLookup obj k = jsLookup apiResponse k := by
  unfold handlerCore at h ⊢
  dsimp only at h ⊢
  split_ifs at h ⊢ with h1 h2 h3 h4
  all_goals
    try
      (have hobj : overrideHubFields word partOfSpeech apiResponse = obj :=
        HandlerBody.classification.inj h
       subst hobj
       exact ⟨rfl, overrideHub_hub _ _ _, overrideHub_pos _ _ _,
         fun k hk1 hk2 => overrideHub_frame _ _ _ k hk1 hk2⟩)
  all_goals cases h

theorem handler_overrides_hub_fields_witness :
    (handlerCore "hot" "adjective" (some ["warm"]) []
        [("facets", JsVal.arr ["x"])]).body =
      HandlerBody.classification
        [("facets", JsVal.arr ["x"]), ("hub_word", JsVal.str "hot"),
          ("part_of_speech", JsVal.str "adjective")] ∧
    ((handlerCore "hot" "adjective" (some ["warm"]) []
        [("facets", JsVal.arr ["x"])]).statusCode = 200 ∧
      jsLookup [("facets", JsVal.arr ["x"]), ("hub_word", JsVal.str "hot"),
          ("part_of_speech", JsVal.str "adjective")] "hub_word" =
        some (JsVal.str "hot") ∧
      jsLookup [("facets", JsVal.arr ["x"]), ("hub_word", JsVal.str "hot"),
          ("part_of_speech", JsVal.str "adjective")] "part_of_speech" =
        some (JsVal.str "adjective") ∧
      ∀ k, k ≠ "hub_word" → k ≠ "part_of_speech" →
        jsLookup [("facets", JsVal.arr ["x"]), ("hub_word", JsVal.str "hot"),
            ("part_of_speech", JsVal.str "adjective")] k =
          jsLookup [("facets", JsVal.arr ["x"])] k) :=
  ⟨by decide,
    handler_overrides_hub_fields "hot" "adjective" (some ["warm"]) []
      [("facets", JsVal.arr ["x"])]
      [("facets", JsVal.arr ["x"]), ("hub_word", JsVal.str "hot"),
        ("part_of_speech", JsVal.str "adjective")] (by decide)⟩

/-! ### Idempotence analysis of `cleanDefinition` (claim C2)

The output of a first pass is whitespace-collapsed, trimmed, lower-cased and
free of `;`/`,`; a second pass is therefore the identity **unless** the
output still starts with a colon (the regex strips only one per pass) or
still contains a removable `{...}` pair (possible when a LineTerminator, now
collapsed to a space, separated the braces during the first pass).  Those
two escapes are exactly the counterexamples; the amended claim excludes
them. -/

/-- `l` contains a `{` with a `}` somewhere after it (no LineTerminator can
intervene in the lists this is applied to, which are collapse outputs). -/
def hasBracePair : List Char → Bool
  | [] => false
  | c :: cs => (decide (c = lbrace) && cs.any (fun d => decide (d = rbrace))) || hasBracePair cs

/-- A failed candidate whose remainder contains no `}` emits its buffer
verbatim and continues. -/
lemma removeBracesAux_no_rbrace : ∀ {cs : List Char}, rbrace ∉ cs → ∀ acc,
    removeBracesAux (some acc) cs = acc.reverse ++ removeBracesAux none cs := by
  intro cs
  induction cs with
  | nil => intro _ acc; simp [removeBracesAux]
  | cons c cs' ih =>
    intro hnr acc
    have hcr : c ≠ rbrace := fun hc => hnr (hc ▸ List.mem_cons_self _ _)
    have hnr' : rbrace ∉ cs' := fun hc => hnr (List.mem_cons_of_mem _ hc)
    by_cases hlt : isLineTerm c = true
    · have hcl : c ≠ lbrace := by
        intro hc
        subst hc
        exact absurd hlt (by decide)
      conv_lhs => rw [removeBracesAux]
      rw [if_neg hcr, if_pos hlt]
      conv_rhs => rw [removeBracesAux]
      rw [if_neg hcl]
    · conv_lhs => rw [removeBracesAux]
      rw [if_neg hcr, if_neg hlt, ih hnr' (c :: acc)]
      by_cases hcl : c = lbrace
      · conv_rhs => rw [removeBracesAux]
        rw [if_pos hcl, ih hnr' [c]]
        simp
      · conv_rhs => rw [removeBracesAux]
        rw [if_neg hcl]
        simp

lemma removeBraces_eq_self {l : List Char} (h : hasBracePair l = false) :
    removeBraces l = l := by
  unfold removeBraces
  induction l with
  | nil => rfl
  | cons c cs ih =>
    rw [hasBracePair] at h
    simp only [Bool.or_eq_false_iff, Bool.and_eq_false_iff] at h
    obtain ⟨h1, h2⟩ := h
    by_cases hcl : c = lbrace
    · have hnr : rbrace ∉ cs := by
        rcases h1 with h1 | h1
        · exact absurd hcl (by simpa using h1)
        · intro hc
          have h' := List.any_eq_false.mp h1 rbrace hc
          simp at h'
      conv_lhs => rw [removeBracesAux]
      rw [if_pos hcl, removeBracesAux_no_rbrace hnr [c]]
      simp [hcl, ih h2]
    · conv_lhs => rw [removeBracesAux]
      rw [if_neg hcl, ih h2]

/-- The two structural facts `collapseWs` guarantees: every whitespace
character in the output is a plain space, and no two whitespace characters
are adjacent. -/
def WsCollapsed (l : List Char) : Prop :=
  (∀ c ∈ l, isJsWs c = true → c = ' ') ∧
    l.Chain' (fun a b => ¬(isJsWs a = true ∧ isJsWs b = true))

lemma collapseWsAux_true_head {cs : List Char} {c : Char}
    (h : (collapseWsAux true cs).head? = some c) : isJsWs c = false := by
  induction cs with
  | nil => simp [collapseWsAux] at h
  | cons d ds ih =>
    rw [collapseWsAux] at h
    by_cases hd : isJsWs d = true
    · rw [if_pos hd, if_pos rfl] at h
      exact ih h
    · rw [if_neg hd] at h
      cases h
      simpa using hd

lemma collapseWsAux_wsCollapsed : ∀ (b : Bool) (l : List Char),
    (∀ c ∈ collapseWsAux b l, isJsWs c = true → c = ' ') ∧
      (collapseWsAux b l).Chain' (fun a b => ¬(isJsWs a = true ∧ isJsWs b = true)) := by
  intro b l
  induction l generalizing b with
  | nil => simp [collapseWsAux]
  | cons c cs ih =>
    by_cases hc : isJsWs c = true
    · cases b with
      | true =>
        rw [collapseWsAux, if_pos hc, if_pos rfl]
        exact ih true
      | false =>
        rw [collapseWsAux, if_pos hc]
        simp only [Bool.false_eq_true, if_false]
        obtain ⟨ihm, ihc⟩ := ih true
        refine ⟨?_, ?_⟩
        · intro x hx _
          rcases List.mem_cons.mp hx with rfl | hx
          · rfl
          · exact ihm x hx (by assumption)
        · rw [List.chain'_cons']
          refine ⟨?_, ihc⟩
          intro y hy
          rw [collapseWsAux_true_head hy]
          simp
    · rw [collapseWsAux, if_neg hc]
      obtain ⟨ihm, ihc⟩ := ih false
      refine ⟨?_, ?_⟩
      · intro x hx hws
        rcases List.mem_cons.mp hx with rfl | hx
        · exact absurd hws hc
        · exact ihm x hx hws
      · rw [List.chain'_cons']
        refine ⟨?_, ihc⟩
        intro y _
        intro hcon
        exact hc hcon.1

lemma collapseWs_wsCollapsed (l : List Char) : WsCollapsed (collapseWs l) :=
  collapseWsAux_wsCollapsed false l

lemma collapseWsAux_eq_self :
    ∀ {l : List Char}, WsCollapsed l →
      collapseWsAux false l = l ∧
        ((∀ c, l.head? = some c → isJsWs c = false) → collapseWsAux true l = l) := by
  intro l
  induction l with
  | nil => simp [collapseWsAux]
  | cons c cs ih =>
    rintro ⟨hmem, hchain⟩
    rcases List.chain'_cons'.mp hchain with ⟨hadj, htail⟩
    have htailC : WsCollapsed cs :=
      ⟨fun x hx => hmem x (List.mem_cons_of_mem _ hx), htail⟩
    obtain ⟨ihA, ihB⟩ := ih htailC
    constructor
    · by_cases hc : isJsWs c = true
      · have hsp : c = ' ' := hmem c (by simp) hc
        rw [collapseWsAux, if_pos hc]
        simp only [Bool.false_eq_true, if_false]
        rw [ihB ?_, hsp]
        intro y hy
        by_contra hws
        exact (hadj y hy) ⟨hc, by simpa using hws⟩
      · rw [collapseWsAux, if_neg hc, ihA]
    · intro hhead
      have hc : isJsWs c = false := hhead c rfl
      rw [collapseWsAux, if_neg (by simp [hc]), ihA]

lemma collapseWs_eq_self {l : List Char} (h : WsCollapsed l) : collapseWs l = l :=
  (collapseWsAux_eq_self h).1

lemma stripLeadingColon_eq_self {l : List Char} (h : l.head? ≠ some ':') :
    stripLeadingColon l = l := by
  cases l with
  | nil => rfl
  | cons c cs =>
    rw [stripLeadingColon, if_neg]
    intro hc
    exact h (by rw [hc]; rfl)

lemma truncateClause_eq_self {l : List Char} (h : ∀ c ∈ l, c ≠ ';' ∧ c ≠ ',') :
    truncateClause l = l := by
  induction l with
  | nil => rfl
  | cons c cs ih =>
    obtain ⟨h1, h2⟩ := h c (by simp)
    rw [truncateClause, if_neg (by simp [h1, h2]), ih]
    intro x hx
    exact h x (List.mem_cons_of_mem _ hx)

lemma dropWhile_head_not {l : List Char} {c : Char}
    (h : (l.dropWhile isJsWs).head? = some c) : isJsWs c = false := by
  induction l with
  | nil => simp [List.dropWhile] at h
  | cons d ds ih =>
    rw [List.dropWhile_cons] at h
    by_cases hd : isJsWs d = true
    · rw [if_pos hd] at h
      exact ih h
    · rw [if_neg hd] at h
      cases h
      simpa using hd

lemma trimWs_head_not {l : List Char} {c : Char} (h : (trimWs l).head? = some c) :
    isJsWs c = false := by
  unfold trimWs at h
  rw [List.head?_reverse] at h
  obtain ⟨pre, hpre⟩ := List.dropWhile_suffix (l := (l.dropWhile isJsWs).reverse) (p := isJsWs)
  have hne : (l.dropWhile isJsWs).reverse.dropWhile isJsWs ≠ [] := by
    intro hnil
    rw [hnil] at h
    simp at h
  have h2 : ((l.dropWhile isJsWs).reverse).getLast? = some c := by
    rw [← hpre, List.getLast?_append_of_ne_nil _ hne]
    exact h
  rw [List.getLast?_reverse] at h2
  exact dropWhile_head_not h2

lemma trimWs_last_not {l : List Char} {c : Char} (h : (trimWs l).getLast? = some c) :
    isJsWs c = false := by
  unfold trimWs at h
  rw [List.getLast?_reverse] at h
  exact dropWhile_head_not h

lemma trimWs_eq_self {l : List Char} (hh : ∀ c, l.head? = some c → isJsWs c = false)
    (hl : ∀ c, l.getLast? = some c → isJsWs c = false) : trimWs l = l := by
  have h1 : l.dropWhile isJsWs = l := by
    cases l with
    | nil => rfl
    | cons c cs =>
      rw [List.dropWhile]
      rw [hh c rfl]
  unfold trimWs
  rw [h1]
  have h2 : l.reverse.dropWhile isJsWs = l.reverse := by
    cases hrev : l.reverse with
    | nil => rfl
    | cons c cs =>
      have hc : l.getLast? = some c := by
        rw [← List.head?_reverse, hrev]
        rfl
      rw [List.dropWhile, hl c hc]
  rw [h2, List.reverse_reverse]

lemma mem_of_mem_trimWs {l : List Char} {c : Char} (h : c ∈ trimWs l) : c ∈ l := by
  unfold trimWs at h
  rw [List.mem_reverse] at h
  have h2 := (List.dropWhile_sublist isJsWs (l := (l.dropWhile isJsWs).reverse)).mem h
  rw [List.mem_reverse] at h2
  exact (List.dropWhile_sublist isJsWs (l := l)).mem h2

lemma wsCollapsed_of_append {pre l : List Char} (h : WsCollapsed (pre ++ l)) :
    WsCollapsed l :=
  ⟨fun c hc => h.1 c (List.mem_append_right _ hc), h.2.right_of_append⟩

lemma wsCollapsed_of_append_left {l rest : List Char} (h : WsCollapsed (l ++ rest)) :
    WsCollapsed l :=
  ⟨fun c hc => h.1 c (List.mem_append_left _ hc), h.2.left_of_append⟩

lemma stripLeadingColon_wsCollapsed {l : List Char} (h : WsCollapsed l) :
    WsCollapsed (stripLeadingColon l) := by
  cases l with
  | nil => exact h
  | cons c cs =>
    by_cases hc : c = ':'
    · rw [stripLeadingColon, if_pos hc]
      have hcs : WsCollapsed cs := @wsCollapsed_of_append [c] cs h
      obtain ⟨pre, hpre⟩ := List.dropWhile_suffix (l := cs) (p := isJsWs)
      rw [← hpre] at hcs
      exact wsCollapsed_of_append hcs
    · rw [stripLeadingColon, if_neg hc]
      exact h

lemma truncateClause_append_eq (l : List Char) :
    ∃ rest, truncateClause l ++ rest = l := by
  induction l with
  | nil => exact ⟨[], rfl⟩
  | cons c cs ih =>
    rw [truncateClause]
    split_ifs with hc
    · exact ⟨c :: cs, rfl⟩
    · obtain ⟨rest, hres⟩ := ih
      exact ⟨rest, by rw [List.cons_append, hres]⟩

lemma no_lineTerm_of_wsCollapsed {l : List Char} (h : WsCollapsed l) :
    ∀ c ∈ l, isLineTerm c = false := by
  intro c hc
  by_contra hlt
  have hlt' : isLineTerm c = true := by simpa using hlt
  have hsp : c = ' ' := h.1 c hc (isJsWs_of_isLineTerm hlt')
  rw [hsp] at hlt'
  exact absurd hlt' (by decide)

lemma truncateClause_no_clause {l : List Char} (hno : ∀ c ∈ l, isLineTerm c = false) :
    ∀ c ∈ truncateClause l, c ≠ ';' ∧ c ≠ ',' := by
  induction l with
  | nil => simp [truncateClause]
  | cons c cs ih =>
    have hfalse : cs.any isLineTerm = false := by
      rw [List.any_eq_false]
      intro y hy
      simp [hno y (List.mem_cons_of_mem _ hy)]
    rw [truncateClause]
    split_ifs with hc
    · simp
    · intro x hx
      rcases List.mem_cons.mp hx with rfl | hx
      · constructor
        · intro heq
          exact hc (by simp [heq, hfalse])
        · intro heq
          exact hc (by simp [heq, hfalse])
      · exact ih (fun y hy => hno y (List.mem_cons_of_mem _ hy)) x hx

lemma chain'_ws_reverse {l : List Char}
    (h : l.Chain' (fun a b => ¬(isJsWs a = true ∧ isJsWs b = true))) :
    l.reverse.Chain' (fun a b => ¬(isJsWs a = true ∧ isJsWs b = true)) := by
  rw [List.chain'_reverse]
  exact h.imp fun a b hab hcon => hab ⟨hcon.2, hcon.1⟩

lemma trimWs_wsCollapsed {l : List Char} (h : WsCollapsed l) : WsCollapsed (trimWs l) := by
  refine ⟨fun c hc => h.1 c (mem_of_mem_trimWs hc), ?_⟩
  unfold trimWs
  obtain ⟨pre1, hpre1⟩ := List.dropWhile_suffix (l := l) (p := isJsWs)
  have hA : (l.dropWhile isJsWs).Chain'
      (fun a b => ¬(isJsWs a = true ∧ isJsWs b = true)) := by
    have := h.2
    rw [← hpre1] at this
    exact this.right_of_append
  have hArev := chain'_ws_reverse hA
  obtain ⟨pre2, hpre2⟩ :=
    List.dropWhile_suffix (l := (l.dropWhile isJsWs).reverse) (p := isJsWs)
  have hB : ((l.dropWhile isJsWs).reverse.dropWhile isJsWs).Chain'
      (fun a b => ¬(isJsWs a = true ∧ isJsWs b = true)) := by
    rw [← hpre2] at hArev
    exact hArev.right_of_append
  exact chain'_ws_reverse hB

/-- All structural facts a first `cleanDefinition` pass guarantees about its
output: whitespace collapsed to single interior spaces, no `;`/`,`, no
leading/trailing whitespace, and lower-case stability. -/
lemma cleanDefinition_facts (s : List Char) :
    WsCollapsed (cleanDefinition s) ∧
    (∀ c ∈ cleanDefinition s, c ≠ ';' ∧ c ≠ ',') ∧
    (∀ c, (cleanDefinition s).head? = some c → isJsWs c = false) ∧
    (∀ c, (cleanDefinition s).getLast? = some c → isJsWs c = false) ∧
    (cleanDefinition s).map jsToLower = cleanDefinition s := by
  have hv : WsCollapsed (collapseWs (removeBraces s)) := collapseWs_wsCollapsed _
  have hw1 : WsCollapsed (stripLeadingColon (collapseWs (removeBraces s))) :=
    stripLeadingColon_wsCollapsed hv
  obtain ⟨rest, hrest⟩ :=
    truncateClause_append_eq (stripLeadingColon (collapseWs (removeBraces s)))
  have hw2 : WsCollapsed (truncateClause (stripLeadingColon (collapseWs (removeBraces s)))) :=
    wsCollapsed_of_append_left (hrest ▸ hw1)
  have hpunct2 : ∀ c ∈ truncateClause (stripLeadingColon (collapseWs (removeBraces s))),
      c ≠ ';' ∧ c ≠ ',' :=
    truncateClause_no_clause (no_lineTerm_of_wsCollapsed hw1)
  have ht0 : WsCollapsed (trimWs (truncateClause (stripLeadingColon
      (collapseWs (removeBraces s))))) := trimWs_wsCollapsed hw2
  have htdef : cleanDefinition s = (trimWs (truncateClause (stripLeadingColon
      (collapseWs (removeBraces s))))).map jsToLower := rfl
  refine ⟨⟨?_, ?_⟩, ?_, ?_, ?_, ?_⟩
  · intro c hc hws
    rw [htdef] at hc
    rcases List.mem_map.mp hc with ⟨c', hc', rfl⟩
    rw [isJsWs_jsToLower] at hws
    have := ht0.1 c' hc' hws
    rw [this]
    decide
  · rw [htdef, List.chain'_map]
    exact ht0.2.imp fun a b hab hcon =>
      hab ⟨by rw [← isJsWs_jsToLower]; exact hcon.1, by rw [← isJsWs_jsToLower]; exact hcon.2⟩
  · intro c hc
    rw [htdef] at hc
    rcases List.mem_map.mp hc with ⟨c', hc', rfl⟩
    have hmem : c' ∈ truncateClause (stripLeadingColon (collapseWs (removeBraces s))) :=
      mem_of_mem_trimWs hc'
    obtain ⟨hs1, hs2⟩ := hpunct2 c' hmem
    constructor
    · intro hc
      exact hs1 ((jsToLower_eq_iff (by decide) (by decide)).mp hc)
    · intro hc
      exact hs2 ((jsToLower_eq_iff (by decide) (by decide)).mp hc)
  · intro c hc
    rw [htdef, List.head?_map] at hc
    cases hh : (trimWs (truncateClause (stripLeadingColon
        (collapseWs (removeBraces s))))).head? with
    | none => rw [hh] at hc; cases hc
    | some c' =>
      rw [hh] at hc
      cases hc
      rw [isJsWs_jsToLower]
      exact trimWs_head_not hh
  · intro c hc
    rw [htdef, List.getLast?_map] at hc
    cases hh : (trimWs (truncateClause (stripLeadingColon
        (collapseWs (removeBraces s))))).getLast? with
    | none => rw [hh] at hc; cases hc
    | some c' =>
      rw [hh] at hc
      cases hc
      rw [isJsWs_jsToLower]
      exact trimWs_last_not hh
  · rw [htdef, List.map_map]
    exact List.map_congr_left fun a _ => jsToLower_idem a

/-- **C2** amended.  `cleanDefinition` is idempotent on every string whose
cleaned form neither starts with a colon (the regex strips only one leading
colon per pass) nor contains a `{` later followed by `}` (possible after the
first pass only when a LineTerminator originally separated the braces). -/
theorem cleanDefinition_idempotent (s : List Char)
    (h1 : hasBracePair (cleanDefinition s) = false)
    (h2 : (cleanDefinition s).head? ≠ some ':') :
    cleanDefinition (cleanDefinition s) = cleanDefinition s := by
  obtain ⟨hcoll, hpunct, hhead, hlast, hlower⟩ := cleanDefinition_facts s
  show (trimWs (truncateClause (stripLeadingColon (collapseWs
      (removeBraces (cleanDefinition s)))))).map jsToLower = cleanDefinition s
  rw [removeBraces_eq_self h1, collapseWs_eq_self hcoll, stripLeadingColon_eq_self h2,
    truncateClause_eq_self hpunct, trimWs_eq_self hhead hlast, hlower]

theorem cleanDefinition_idempotent_witness :
    hasBracePair (cleanDefinition "  Hello,  World  ".data) = false ∧
      (cleanDefinition "  Hello,  World  ".data).head? ≠ some ':' ∧
      cleanDefinition (cleanDefinition "  Hello,  World  ".data) =
        cleanDefinition "  Hello,  World  ".data :=
  ⟨by decide, by decide,
    cleanDefinition_idempotent "  Hello,  World  ".data (by decide) (by decide)⟩

end WordRadar
